import Mathlib

/-!
Verification development for the multi-provider LLM API gateway
(`test-claude-code-router-python`).

The Python sources are shallowly embedded as executable Lean definitions:

* `Json` — a small model of Python/JSON values (numbers are integers;
  the repository's code paths exercised here never depend on float
  arithmetic).  `jtruthy` models Python truthiness, `jdump` models
  `json.dumps` with its default separators, and `parseJson` models
  `json.loads` for the integer-numeral fragment of JSON.
* `Anthropic.*` — `src/pyllms/src/transformer/anthropic_transformer.py`:
  the request translation `transform_request_out` and the OpenAI-SSE →
  Anthropic-SSE streaming converter `_process_stream`.
* `Router.*` — `src/utils/router.py`.
* `MaxToken.*` — `src/pyllms/src/transformer/maxtoken_transformer.py`.
* `Auth.*` — `src/middleware/auth.py`.
* `Provider.*` — `src/pyllms/src/services/provider.py`.
* `Routes.*` — the upstream-response handling of
  `src/pyllms/src/api/routes.py` together with the error translation of
  `src/pyllms/src/api/middleware.py`.

Statefulness (the converter's mutable locals, the registry dictionaries)
is embedded as explicit state passing; Python dictionaries are embedded
as association lists whose insert conses in front (so lookup sees the
latest binding, matching dict update), and fallible code returns
`Option`.
-/

/-! ## A model of JSON / Python dict values -/

mutual

/-- Json values as produced by `json.loads`.  Numbers are modelled as
integers: every numeric literal handled by the embedded code paths is an
integer (token counts, indices, usage counters). -/
inductive Json where
  | null : Json
  | bool (b : Bool) : Json
  | num (n : Int) : Json
  | str (s : String) : Json
  | arr (a : JsonSeq) : Json
  | obj (o : JsonFields) : Json

/-- A JSON array, as a chained sequence (kept separate from `List` so
that all recursions stay structural). -/
inductive JsonSeq where
  | nil : JsonSeq
  | cons (v : Json) (rest : JsonSeq) : JsonSeq

/-- The key/value fields of a JSON object, in insertion order. -/
inductive JsonFields where
  | nil : JsonFields
  | cons (k : String) (v : Json) (rest : JsonFields) : JsonFields

end

/-- Lookup of a key in a JSON object, modelling `dict.get(k)` (returns
`none` when the key is absent). -/
def JsonFields.get : JsonFields → String → Option Json
  | .nil, _ => none
  | .cons k v rest, key => if k = key then some v else rest.get key

/-- Python truthiness (`bool(x)`) of a JSON value: `None`, `False`, `0`,
`""`, `[]` and `{}` are falsy, everything else truthy. -/
def jtruthy : Json → Bool
  | .null => false
  | .bool b => b
  | .num n => !(n == 0)
  | .str s => !(s == "")
  | .arr .nil => false
  | .arr (.cons _ _) => true
  | .obj .nil => false
  | .obj (.cons _ _ _) => true

/-- Truthiness of a `dict.get` result: an absent key is falsy. -/
def jtruthyOpt : Option Json → Bool
  | none => false
  | some v => jtruthy v

/-- String escaping as performed by `json.dumps` (the escapes relevant
to the embedded code: backslash, quote, and the common control
characters). -/
def jescapeChar (c : Char) : String :=
  if c = '\\' then "\\\\"
  else if c = '"' then "\\\""
  else if c = '\n' then "\\n"
  else if c = '\t' then "\\t"
  else if c = '\r' then "\\r"
  else String.singleton c

/-- Escape every character of a string for JSON output. -/
def jescape (s : String) : String :=
  s.data.foldl (fun acc c => acc ++ jescapeChar c) ""

mutual

/-- Serialization of a JSON value, modelling `json.dumps` with its
default separators `", "` and `": "`. -/
def jdump : Json → String
  | .null => "null"
  | .bool true => "true"
  | .bool false => "false"
  | .num n => toString n
  | .str s => "\"" ++ jescape s ++ "\""
  | .arr a => "[" ++ jdumpSeq a ++ "]"
  | .obj o => "\x7b" ++ jdumpFields o ++ "\x7d"

/-- Serialize the elements of a JSON array, comma separated. -/
def jdumpSeq : JsonSeq → String
  | .nil => ""
  | .cons v .nil => jdump v
  | .cons v rest@(.cons _ _) => jdump v ++ ", " ++ jdumpSeq rest

/-- Serialize the fields of a JSON object, comma separated. -/
def jdumpFields : JsonFields → String
  | .nil => ""
  | .cons k v .nil => "\"" ++ jescape k ++ "\": " ++ jdump v
  | .cons k v rest@(.cons _ _ _) =>
      "\"" ++ jescape k ++ "\": " ++ jdump v ++ ", " ++ jdumpFields rest

end

/-! ### A `json.loads` model for the integer fragment of JSON

Used only by the byte-level embedding of the streaming converter, which
feeds each `data: ` payload through `json.loads`. -/

/-- Drop leading JSON whitespace. -/
def skipWs : List Char → List Char
  | c :: rest => if c = ' ' ∨ c = '\n' ∨ c = '\t' ∨ c = '\r' then skipWs rest else c :: rest
  | [] => []

/-- Parse a JSON string literal body up to the closing quote, handling
the standard single-character escapes. -/
def parseStrBody : List Char → Option (String × List Char)
  | [] => none
  | c :: rest =>
    if c = '"' then some ("", rest)
    else if c = '\\' then
      match rest with
      | [] => none
      | e :: rest' =>
        let dec : Option Char :=
          if e = '"' then some '"'
          else if e = '\\' then some '\\'
          else if e = '/' then some '/'
          else if e = 'n' then some '\n'
          else if e = 't' then some '\t'
          else if e = 'r' then some '\r'
          else none
        match dec with
        | none => none
        | some d =>
          match parseStrBody rest' with
          | some (s, rem) => some (String.singleton d ++ s, rem)
          | none => none
    else
      match parseStrBody rest with
      | some (s, rem) => some (String.singleton c ++ s, rem)
      | none => none

/-- Parse a run of decimal digits into a natural number. -/
def parseDigits : Nat → List Char → Option (Nat × List Char)
  | acc, c :: rest =>
    if c.isDigit then parseDigits (acc * 10 + (c.toNat - 48)) rest
    else some (acc, c :: rest)
  | _, [] => none

/-- Parse a run of digits, requiring at least one digit. -/
def parseNumBody (cs : List Char) : Option (Nat × List Char) :=
  match cs with
  | c :: _ => if c.isDigit then parseDigits 0 cs else none
  | [] => none

mutual

/-- Fuel-indexed parser for one JSON value. -/
def parseValue : Nat → List Char → Option (Json × List Char)
  | 0, _ => none
  | fuel + 1, cs =>
    match skipWs cs with
    | [] => none
    | c :: rest =>
      if c = '"' then
        match parseStrBody rest with
        | some (s, rem) => some (.str s, rem)
        | none => none
      else if c = '\x7b' then
        match skipWs rest with
        | '\x7d' :: rem => some (.obj .nil, rem)
        | other => match parseFields fuel other with
          | some (o, rem) => some (.obj o, rem)
          | none => none
      else if c = '[' then
        match skipWs rest with
        | ']' :: rem => some (.arr .nil, rem)
        | other => match parseElems fuel other with
          | some (a, rem) => some (.arr a, rem)
          | none => none
      else if c = 't' then
        if "rue".data.isPrefixOf rest then some (.bool true, rest.drop 3) else none
      else if c = 'f' then
        if "alse".data.isPrefixOf rest then some (.bool false, rest.drop 4) else none
      else if c = 'n' then
        if "ull".data.isPrefixOf rest then some (.null, rest.drop 3) else none
      else if c = '-' then
        match parseNumBody rest with
        | some (n, rem) => some (.num (-(n : Int)), rem)
        | none => none
      else
        match parseNumBody (c :: rest) with
        | some (n, rem) => some (.num (n : Int), rem)
        | none => none

/-- Fuel-indexed parser for the (non-empty) element list of an array. -/
def parseElems : Nat → List Char → Option (JsonSeq × List Char)
  | 0, _ => none
  | fuel + 1, cs =>
    match parseValue fuel cs with
    | none => none
    | some (v, rem) =>
      match skipWs rem with
      | ',' :: rem' =>
        match parseElems fuel rem' with
        | some (a, rem'') => some (.cons v a, rem'')
        | none => none
      | ']' :: rem' => some (.cons v .nil, rem')
      | _ => none

/-- Fuel-indexed parser for the (non-empty) field list of an object. -/
def parseFields : Nat → List Char → Option (JsonFields × List Char)
  | 0, _ => none
  | fuel + 1, cs =>
    match skipWs cs with
    | '"' :: rest =>
      match parseStrBody rest with
      | none => none
      | some (k, rem) =>
        match skipWs rem with
        | ':' :: rem' =>
          match parseValue fuel rem' with
          | none => none
          | some (v, rem'') =>
            match skipWs rem'' with
            | ',' :: rem3 =>
              match parseFields fuel rem3 with
              | some (o, rem4) => some (.cons k v o, rem4)
              | none => none
            | '\x7d' :: rem3 => some (.cons k v .nil, rem3)
            | _ => none
        | _ => none
    | _ => none

end

/-- Model of `json.loads` on a raw character list: the parse must
consume the whole input (up to trailing whitespace) or fail. -/
def parseJson (cs : List Char) : Option Json :=
  match parseValue (2 * cs.length + 2) cs with
  | some (v, rem) => if skipWs rem = [] then some v else none
  | none => none

/-! ## Small shared helpers -/

/-- Lookup in an association list embedding a Python dict
(`d.get(k)`). -/
def alookup {α β : Type} [DecidableEq α] : List (α × β) → α → Option β
  | [], _ => none
  | (k, v) :: rest, key => if k = key then some v else alookup rest key

/-- Python truthiness of an optional string (`None` and `""` are
falsy). -/
def truthyOS : Option String → Bool
  | none => false
  | some s => !(s == "")

/-- Model of `a or default` on an optional string: the default is used
when the value is absent or empty. -/
def orDefault (o : Option String) (d : String) : String :=
  match o with
  | some s => if s = "" then d else s
  | none => d

/-- Model of `str.startswith(pre)`. -/
def strStartsWith (s pre : String) : Bool :=
  pre.data.isPrefixOf s.data

/-- Model of `"," in s` (substring membership of a single comma). -/
def containsComma (s : String) : Bool :=
  s.data.contains ','

/-- Model of `str.split(sep)` for a single-character separator (keeps
empty pieces, like Python's explicit-separator `split`). -/
def splitOnChar (sep : Char) : List Char → List (List Char)
  | [] => [[]]
  | c :: rest =>
    match splitOnChar sep rest with
    | h :: t => if c = sep then [] :: h :: t else (c :: h) :: t
    | [] => [[c]]

/-! ## The OpenAI-SSE → Anthropic-SSE streaming converter

Embedding of `AnthropicTransformer._process_stream`
(`src/pyllms/src/transformer/anthropic_transformer.py`, lines 191-478).
The mutable locals of the Python coroutine become `StreamState`; each
`writer.write(...)` becomes an emitted `SSEEvent`.  Events are kept
structured (the Python code serializes each one as
`event: <name>\ndata: <json>\n\n`; that framing carries no information
beyond the event itself). -/

namespace Anthropic

/-- One entry of the converter's `tool_calls` dict. -/
structure ToolCallAcc where
  id : String
  name : String
  arguments : String
  content_block_index : Nat
deriving DecidableEq, Repr

/-- The mutable locals of `_process_stream`. -/
structure StreamState where
  model : String := "unknown"
  has_started : Bool := false
  has_text_content_started : Bool := false
  has_finished : Bool := false
  tool_calls : List (Int × ToolCallAcc) := []
  tool_call_index_to_content_block_index : List (Int × Nat) := []
  content_index : Nat := 0
deriving DecidableEq, Repr

/-- Payload of a `content_block_start` event. -/
inductive BlockInit where
  | text : BlockInit
  | toolUse (id name : String) : BlockInit
deriving DecidableEq, Repr

/-- Payload of a `content_block_delta` event. -/
inductive DeltaBody where
  | textDelta (text : String) : DeltaBody
  | inputJsonDelta (pjson : String) : DeltaBody
  | thinkingDelta (thinking : String) : DeltaBody
  | signatureDelta (signature : String) : DeltaBody
deriving DecidableEq, Repr

/-- The Anthropic SSE events written by the converter. -/
inductive SSEEvent where
  | messageStart (id model : String) : SSEEvent
  | blockStart (index : Nat) (block : BlockInit) : SSEEvent
  | blockDelta (index : Nat) (body : DeltaBody) : SSEEvent
  | blockStop (index : Nat) : SSEEvent
  | messageDelta (stop_reason : String) (input_tokens output_tokens : Int) : SSEEvent
  | messageStop : SSEEvent
  | errorEvent (message : String) : SSEEvent
deriving DecidableEq, Repr

/-- The `delta.thinking` object of an upstream chunk.  `signature`
records key presence (the source tests `"signature" in thinking_data`),
`content` a present string. -/
structure ThinkingDelta where
  signature : Option String := none
  content : Option String := none
deriving DecidableEq, Repr

/-- The `function` object inside one `delta.tool_calls` entry. -/
structure FnDelta where
  name : Option String := none
  arguments : Option String := none
deriving DecidableEq, Repr

/-- One entry of `delta.tool_calls` (`index` defaults to 0 in the
source via `tool_call.get("index", 0)`). -/
structure ToolCallDelta where
  index : Int := 0
  id : Option String := none
  function : FnDelta := {}
deriving DecidableEq, Repr

/-- The `delta` object of an upstream choice. -/
structure ChoiceDelta where
  thinking : Option ThinkingDelta := none
  content : Option String := none
  tool_calls : List ToolCallDelta := []
deriving DecidableEq, Repr

/-- One element of the upstream `choices` array. -/
structure Choice where
  delta : ChoiceDelta := {}
  finish_reason : Option String := none
deriving DecidableEq, Repr

/-- The `usage` object of an upstream chunk, with the source's
`get(..., 0)` defaults. -/
structure ChunkUsage where
  prompt_tokens : Int := 0
  completion_tokens : Int := 0
deriving DecidableEq, Repr

/-- One parsed `data:` payload in the OpenAI chunk schema.  This is the
domain of the converter's per-chunk step; payloads that deviate from
the schema make the Python code raise inside the per-line
`try`/`except` and are modelled at the line layer (`chunkOfJson`). -/
structure Chunk where
  error : Option Json := none
  model : Option String := none
  choices : List Choice := []
  usage : ChunkUsage := {}

/-- Truthiness of a `delta.thinking` dict: it is truthy exactly when it
has at least one key. -/
def thinkingTruthy (t : ThinkingDelta) : Bool :=
  t.signature.isSome || t.content.isSome

/-- Thinking handling (`_process_stream` lines 267-302): a `signature`
key emits a `signature_delta` plus a `content_block_stop` and advances
`content_index`; otherwise truthy `content` emits a `thinking_delta`. -/
def phaseThinking (st : StreamState) (ch : Choice) : StreamState × List SSEEvent :=
  match ch.delta.thinking with
  | none => (st, [])
  | some t =>
    if thinkingTruthy t && !st.has_finished then
      match t.signature with
      | some sig =>
          ({ st with content_index := st.content_index + 1 },
           [.blockDelta st.content_index (.signatureDelta sig),
            .blockStop st.content_index])
      | none =>
        match t.content with
        | some cont =>
            if cont = "" then (st, [])
            else (st, [.blockDelta st.content_index (.thinkingDelta cont)])
        | none => (st, [])
    else (st, [])

/-- Text handling (`_process_stream` lines 304-332): a truthy
`delta.content` opens the text block on first sight and emits a
`text_delta`. -/
def phaseText (st : StreamState) (ch : Choice) : StreamState × List SSEEvent :=
  match ch.delta.content with
  | none => (st, [])
  | some cont =>
    if cont = "" || st.has_finished then (st, [])
    else
      let (st1, startEvs) :=
        if !st.has_text_content_started && !st.has_finished then
          ({ st with has_text_content_started := true },
           [.blockStart st.content_index .text])
        else (st, [])
      (st1, startEvs ++ [.blockDelta st1.content_index (.textDelta cont)])

/-- Argument-fragment handling (`_process_stream` lines 385-421): a
truthy `function.arguments` is appended to the stored buffer and then
emitted unchanged as an `input_json_delta` at the stored block index.
The source's serialization-failure fallback (escape and retry) cannot
trigger in this embedding because serializing a string never fails. -/
def argsStep (st : StreamState) (acc : List SSEEvent) (tc : ToolCallDelta) :
    StreamState × List SSEEvent :=
  match tc.function.arguments with
  | none => (st, acc)
  | some args =>
    if args = "" then (st, acc)
    else
      match alookup st.tool_calls tc.index with
      | none => (st, acc)
      | some cur =>
        let st' := { st with
          tool_calls := (tc.index, { cur with arguments := cur.arguments ++ args }) :: st.tool_calls }
        match alookup st.tool_call_index_to_content_block_index tc.index with
        | some bi => (st', acc ++ [.blockDelta bi (.inputJsonDelta args)])
        | none => (st', acc)

/-- Processing of a single `delta.tool_calls` entry (`_process_stream`
lines 336-421): a new upstream index closes the current block when one
was opened, opens a `tool_use` block (synthesising id and name when the
delta lacks them), and records the accumulator; a known index may
upgrade a synthetic id/name pair; finally argument fragments are
forwarded. -/
def toolStep (ts : Nat) (st : StreamState) (tc : ToolCallDelta) :
    StreamState × List SSEEvent :=
  match alookup st.tool_calls tc.index with
  | none =>
    let (stA, closeEvs) :=
      if st.has_text_content_started || !st.tool_calls.isEmpty then
        ({ st with content_index := st.content_index + 1 },
         [SSEEvent.blockStop st.content_index])
      else (st, [])
    let tcId := orDefault tc.id ("call_" ++ toString ts ++ "_" ++ toString tc.index)
    let tcName := orDefault tc.function.name ("tool_" ++ toString tc.index)
    let stB := { stA with
      tool_calls := (tc.index, ⟨tcId, tcName, "", stA.content_index⟩) :: stA.tool_calls,
      tool_call_index_to_content_block_index :=
        (tc.index, stA.content_index) :: stA.tool_call_index_to_content_block_index }
    argsStep stB (closeEvs ++ [.blockStart stA.content_index (.toolUse tcId tcName)]) tc
  | some existing =>
    let stA :=
      if truthyOS tc.id && truthyOS tc.function.name
          && strStartsWith existing.id "call_" && strStartsWith existing.name "tool_" then
        { st with tool_calls :=
            (tc.index, { existing with
              id := tc.id.getD "", name := tc.function.name.getD "" }) :: st.tool_calls }
      else st
    argsStep stA [] tc

/-- Fold of `toolStep` over the `delta.tool_calls` array. -/
def toolFold (ts : Nat) (st : StreamState) : List ToolCallDelta → StreamState × List SSEEvent
  | [] => (st, [])
  | tc :: rest =>
    let (st1, e1) := toolStep ts st tc
    let (st2, e2) := toolFold ts st1 rest
    (st2, e1 ++ e2)

/-- Tool-call handling guard (`_process_stream` line 335). -/
def phaseTool (ts : Nat) (st : StreamState) (ch : Choice) : StreamState × List SSEEvent :=
  if !ch.delta.tool_calls.isEmpty && !st.has_finished then
    toolFold ts st ch.delta.tool_calls
  else (st, [])

/-- The `finish_reason` → `stop_reason` mapping of the source. -/
def stopReasonMap (fr : String) : String :=
  if fr = "stop" then "end_turn"
  else if fr = "length" then "max_tokens"
  else if fr = "tool_calls" then "tool_use"
  else if fr = "content_filter" then "stop_sequence"
  else "end_turn"

/-- Finish handling (`_process_stream` lines 423-466): on the first
truthy `finish_reason`, close the current block when one was opened,
emit `message_delta` with mapped stop reason and the chunk's usage,
then `message_stop`, and mark the stream finished. -/
def phaseFinish (st : StreamState) (ch : Choice) (usage : ChunkUsage) :
    StreamState × List SSEEvent :=
  match ch.finish_reason with
  | none => (st, [])
  | some fr =>
    if fr = "" || st.has_finished then (st, [])
    else
      let closeEvs :=
        if st.has_text_content_started || !st.tool_calls.isEmpty then
          [SSEEvent.blockStop st.content_index]
        else []
      ({ st with has_finished := true },
       closeEvs ++ [.messageDelta (stopReasonMap fr) usage.prompt_tokens usage.completion_tokens,
                    .messageStop])

/-- Processing of one parsed chunk, in source order: error chunks emit
an `error` event and stop; a truthy `model` is recorded; the first
chunk emits `message_start`; then the first choice drives the
thinking, text, tool-call and finish phases.  A chunk whose first
choice is the empty dict is skipped by the source (`if not choice`);
such a choice has no truthy field, so skipping and falling through
coincide and the check is not modelled separately. -/
def processChunkCore (ts : Nat) (st1 : StreamState) (c : Chunk) : StreamState × List SSEEvent :=
  let (st2, startEvs) :=
    if !st1.has_started && !st1.has_finished then
      ({ st1 with has_started := true },
       [SSEEvent.messageStart ("msg_" ++ toString ts) st1.model])
    else (st1, [])
  match c.choices.head? with
  | none => (st2, startEvs)
  | some ch =>
    let (st3, e3) := phaseThinking st2 ch
    let (st4, e4) := phaseText st3 ch
    let (st5, e5) := phaseTool ts st4 ch
    let (st6, e6) := phaseFinish st5 ch c.usage
    (st6, startEvs ++ e3 ++ e4 ++ e5 ++ e6)

def processChunk (ts : Nat) (st : StreamState) (c : Chunk) : StreamState × List SSEEvent :=
  if jtruthyOpt c.error then
    (st, [.errorEvent (jdump (c.error.getD .null))])
  else
    let st1 := match c.model with
      | some m => if m = "" then st else { st with model := m }
      | none => st
    processChunkCore ts st1 c

/-- Processing of a sequence of parsed chunks; once `has_finished` is
set, all remaining input is discarded (the source's `break`s). -/
def processChunks (ts : Nat) (st : StreamState) : List Chunk → StreamState × List SSEEvent
  | [] => (st, [])
  | c :: cs =>
    if st.has_finished then (st, [])
    else
      let (st1, e1) := processChunk ts st c
      let (st2, e2) := processChunks ts st1 cs
      (st2, e1 ++ e2)

/-! ### The byte/line layer

`_process_stream` lines 204-223: each TCP read is split on `'\n'` and
every piece — including a trailing incomplete one — is examined
immediately; pieces not starting with `"data: "` are skipped, `[DONE]`
is skipped, and everything else goes through `json.loads`, whose
failures are swallowed by the per-line `except`. -/

/-- Extraction of a schema-conforming `Chunk` from a parsed payload.
Payloads outside the OpenAI chunk schema (non-object chunks, non-array
`choices`, non-string deltas, …) yield `none`: on such input the Python
code raises `AttributeError`/`TypeError` inside the per-line handler,
which logs and drops the line. -/
def chunkOfJson : Json → Option Chunk :=
  fun j =>
    match j with
    | .obj fields =>
      let getF := fields.get
      let optStr : Option Json → Option (Option String) := fun v =>
        match v with
        | none => some none
        | some .null => some none
        | some (.str s) => some (some s)
        | some _ => none
      let optInt : Option Json → Int → Option Int := fun v d =>
        match v with
        | none => some d
        | some (.num n) => some n
        | some _ => none
      let thinkingOf : Option Json → Option (Option ThinkingDelta) := fun v =>
        match v with
        | none => some none
        | some .null => some none
        | some (.obj tf) =>
          match optStr (tf.get "signature"), optStr (tf.get "content") with
          | some sig, some cont => some (some ⟨sig, cont⟩)
          | _, _ => none
        | some _ => none
      let toolOf : Json → Option ToolCallDelta := fun v =>
        match v with
        | .obj tf =>
          let fnOf : Option Json → Option FnDelta := fun fv =>
            match fv with
            | none => some {}
            | some (.obj ff) =>
              match optStr (ff.get "name"), optStr (ff.get "arguments") with
              | some n, some a => some ⟨n, a⟩
              | _, _ => none
            | some _ => none
          match optInt (tf.get "index") 0, optStr (tf.get "id"), fnOf (tf.get "function") with
          | some idx, some tid, some fn => some ⟨idx, tid, fn⟩
          | _, _, _ => none
        | _ => none
      let rec toolsOf : JsonSeq → Option (List ToolCallDelta)
        | .nil => some []
        | .cons v rest =>
          match toolOf v, toolsOf rest with
          | some tc, some tcs => some (tc :: tcs)
          | _, _ => none
      let choiceOf : Json → Option Choice := fun v =>
        match v with
        | .obj cf =>
          let deltaOf : Option Json → Option ChoiceDelta := fun dv =>
            match dv with
            | none => some {}
            | some (.obj df) =>
              let tcs : Option (List ToolCallDelta) :=
                match df.get "tool_calls" with
                | none => some []
                | some .null => some []
                | some (.arr a) => toolsOf a
                | some _ => none
              match thinkingOf (df.get "thinking"), optStr (df.get "content"), tcs with
              | some th, some cont, some tl => some ⟨th, cont, tl⟩
              | _, _, _ => none
            | some _ => none
          match deltaOf (cf.get "delta"), optStr (cf.get "finish_reason") with
          | some d, some fr => some ⟨d, fr⟩
          | _, _ => none
        | _ => none
      let rec choicesOf : JsonSeq → Option (List Choice)
        | .nil => some []
        | .cons v rest =>
          match choiceOf v, choicesOf rest with
          | some ch, some chs => some (ch :: chs)
          | _, _ => none
      let choicesV : Option (List Choice) :=
        match getF "choices" with
        | none => some []
        | some .null => some []
        | some (.arr a) => choicesOf a
        | some _ => none
      let usageV : Option ChunkUsage :=
        match getF "usage" with
        | none => some {}
        | some .null => some {}
        | some (.obj uf) =>
          match optInt (uf.get "prompt_tokens") 0, optInt (uf.get "completion_tokens") 0 with
          | some p, some c => some ⟨p, c⟩
          | _, _ => none
        | some _ => none
      match optStr (getF "model"), choicesV, usageV with
      | some m, some chs, some us => some ⟨getF "error", m, chs, us⟩
      | _, _, _ => none
    | _ => none

/-- Processing of one line of a read (`_process_stream` lines
211-223). -/
def processLine (ts : Nat) (st : StreamState) (line : List Char) :
    StreamState × List SSEEvent :=
  if st.has_finished then (st, [])
  else if !("data: ".data.isPrefixOf line) then (st, [])
  else
    let data := line.drop 6
    if data = "[DONE]".data then (st, [])
    else
      match parseJson data with
      | none => (st, [])
      | some j =>
        match chunkOfJson j with
        | none => (st, [])
        | some c => processChunk ts st c

/-- Processing of all lines produced by one read. -/
def processLines (ts : Nat) (st : StreamState) : List (List Char) → StreamState × List SSEEvent
  | [] => (st, [])
  | l :: rest =>
    let (st1, e1) := processLine ts st l
    let (st2, e2) := processLines ts st1 rest
    (st2, e1 ++ e2)

/-- Processing of one TCP read: decode, split on newlines, process
every piece. -/
def processRead (ts : Nat) (st : StreamState) (read : String) : StreamState × List SSEEvent :=
  processLines ts st (splitOnChar '\n' read.data)

/-- The whole converter on a list of TCP reads. -/
def processStream (ts : Nat) (reads : List String) : List SSEEvent :=
  (reads.foldl
    (fun acc read =>
      if acc.1.has_finished then acc
      else
        let (st', evs) := processRead ts acc.1 read
        (st', acc.2 ++ evs))
    (({} : StreamState), [])).2

end Anthropic

/-! ## The Anthropic request shape and the unified request model

Shared between `AnthropicTransformer.transform_request_out` and the
router, which both walk the inbound Anthropic JSON body. -/

/-- The `content` of a `tool_result` part: either a string or any other
JSON value (which the source passes through `json.dumps`). -/
inductive PartContent where
  | pstr (s : String) : PartContent
  | pjson (j : Json) : PartContent

/-- One element of a message's list-valued `content`, with the keys read
by the source (`type`, `text`, `id`, `name`, `input`, `tool_use_id`,
`content`, `cache_control`). -/
structure ContentPart where
  type : String
  text : Option String := none
  id : Option String := none
  name : Option String := none
  input : Option Json := none
  tool_use_id : Option String := none
  content : Option PartContent := none
  cache_control : Option Json := none

/-- A message's `content`: absent key, explicit `null`, string, or list
of parts (`absent` and `nullv` are distinguished because the router's
`message.get("content", "")` treats them differently). -/
inductive MsgContent where
  | absent : MsgContent
  | nullv : MsgContent
  | str (s : String) : MsgContent
  | parts (l : List ContentPart) : MsgContent

/-- One inbound Anthropic message. -/
structure AnthMessage where
  role : String
  content : MsgContent := .absent

/-- The `text` of a system-array item: the router accepts a string or a
list of strings there; `absent` and explicit `null` are kept apart for
the `item.get("text", "")` default. -/
inductive SysText where
  | absent : SysText
  | snull : SysText
  | sstr (s : String) : SysText
  | slist (l : List (Option String)) : SysText

/-- One item of a list-valued Anthropic `system` field. -/
structure SysItem where
  type : Option String := none
  text : SysText := .absent
  cache_control : Option Json := none

/-- The Anthropic `system` field. -/
inductive SystemField where
  | absent : SystemField
  | str (s : String) : SystemField
  | list (l : List SysItem) : SystemField

/-- One Anthropic tool declaration. -/
structure AnthTool where
  name : Option String := none
  description : Option String := none
  input_schema : Option Json := none

/-- The inbound Anthropic request body, with the fields read by the
transformer and the router. -/
structure AnthropicBody where
  model : Option String := none
  messages : List AnthMessage := []
  system : SystemField := .absent
  tools : List AnthTool := []
  thinking : Option Json := none
  max_tokens : Option Int := none
  temperature : Option Json := none
  stream : Option Bool := none
  tool_choice : Option Json := none

/-- A unified tool call as built by `transform_request_out` (the
`function` sub-dict is flattened). -/
structure UToolCall where
  id : String
  type : String := "function"
  name : String
  arguments : String

/-- A system content part as rebuilt by the transformer from a
list-valued `system` field (its `type` is always `"text"`). -/
structure SysOutPart where
  text : SysText
  cache_control : Option Json := none

/-- Content of a unified message produced by the transformer. -/
inductive UContent where
  | nothing : UContent
  | str (s : String) : UContent
  | uparts (l : List ContentPart) : UContent
  | sysparts (l : List SysOutPart) : UContent

/-- A unified message (`UnifiedMessage` in
`src/pyllms/src/types/llm.py`). -/
structure UMessage where
  role : String
  content : UContent := .nothing
  tool_calls : Option (List UToolCall) := none
  tool_call_id : Option String := none
  cache_control : Option Json := none

/-- A unified tool (`{type:"function", function:{name, description,
parameters}}`, flattened). -/
structure UnifiedTool where
  name : String
  description : String
  parameters : Json

/-- The unified chat request (`UnifiedChatRequest` in
`src/pyllms/src/types/llm.py`). -/
structure UnifiedChatRequest where
  messages : List UMessage
  model : String
  max_tokens : Option Int := none
  temperature : Option Json := none
  stream : Bool := false
  tools : Option (List UnifiedTool) := none
  tool_choice : Option Json := none

namespace Anthropic

/-- Truthiness of a system item's `text` value. -/
def truthySysText : SysText → Bool
  | .absent => false
  | .snull => false
  | .sstr s => !(s == "")
  | .slist l => !l.isEmpty

/-- System lifting (`transform_request_out` lines 26-42): a string
becomes one system message; a list keeps its truthy text items. -/
def systemMessages : SystemField → List UMessage
  | .absent => []
  | .str s => [{ role := "system", content := .str s }]
  | .list items =>
      [{ role := "system",
         content := .sysparts (items.filterMap fun it =>
           if it.type = some "text" && truthySysText it.text then
             some ⟨it.text, it.cache_control⟩
           else none) }]

/-- Stringification of a `tool_result` content
(`tool["content"] if isinstance(tool["content"], str) else
json.dumps(tool["content"])`).  An absent `content` key would raise
`KeyError` in the source; it is modelled like an explicit `null`
(which the source serializes to `"null"`). -/
def toolResultContent : Option PartContent → String
  | some (.pstr s) => s
  | some (.pjson j) => jdump j
  | none => jdump .null

/-- Translation of one inbound message (`transform_request_out` lines
47-122): roles other than `user`/`assistant` are dropped; user list
content splits into `tool` messages (one per `tool_result` part with a
truthy `tool_use_id`) plus one user message holding the truthy text
parts; assistant list content becomes a newline-joined text content
plus tool calls for the `tool_use` parts with a truthy `id`. -/
def convMessage (m : AnthMessage) : List UMessage :=
  if m.role = "user" || m.role = "assistant" then
    match m.content with
    | .str s => [{ role := m.role, content := .str s }]
    | .parts ps =>
      if m.role = "user" then
        let tool_parts := ps.filter fun p => p.type = "tool_result" && truthyOS p.tool_use_id
        let toolMsgs := tool_parts.map fun p =>
          ({ role := "tool",
             content := .str (toolResultContent p.content),
             tool_call_id := p.tool_use_id,
             cache_control := p.cache_control } : UMessage)
        let text_parts := ps.filter fun p => p.type = "text" && truthyOS p.text
        toolMsgs ++
          (if !text_parts.isEmpty then
            [({ role := "user", content := .uparts text_parts } : UMessage)]
          else [])
      else
        let text_parts := ps.filter fun p => p.type = "text" && truthyOS p.text
        let contentV : UContent :=
          if !text_parts.isEmpty then
            .str (String.intercalate "\n" (text_parts.map fun p => p.text.getD ""))
          else .nothing
        let tool_call_parts := ps.filter fun p => p.type = "tool_use" && truthyOS p.id
        let tcs : Option (List UToolCall) :=
          if !tool_call_parts.isEmpty then
            some (tool_call_parts.map fun p =>
              { id := p.id.getD "", name := p.name.getD "",
                arguments := jdump (p.input.getD (.obj .nil)) })
          else none
        [{ role := "assistant", content := contentV, tool_calls := tcs }]
    | _ => []
  else []

/-- Tool translation (`_convert_anthropic_tools_to_unified`). -/
def convertTools (tools : List AnthTool) : List UnifiedTool :=
  tools.map fun t =>
    ⟨t.name.getD "", t.description.getD "", t.input_schema.getD (.obj .nil)⟩

/-- The Anthropic → unified request translation
(`AnthropicTransformer.transform_request_out`, lines 20-135). -/
def transform_request_out (r : AnthropicBody) : UnifiedChatRequest :=
  { messages := systemMessages r.system ++ (r.messages.map convMessage).flatten
    model := r.model.getD ""
    max_tokens := r.max_tokens
    temperature := r.temperature
    stream := r.stream.getD false
    tools := if !r.tools.isEmpty then some (convertTools r.tools) else none
    tool_choice := r.tool_choice }

/-- Claim-side filter: the content parts the specification says the
transformer keeps — truthy text parts, `tool_result` parts in user
messages, and `tool_use` parts with an id in assistant messages. -/
def keepPart (role : String) (p : ContentPart) : Bool :=
  (p.type = "text" && truthyOS p.text)
  || (role = "user" && p.type = "tool_result")
  || (role = "assistant" && p.type = "tool_use" && truthyOS p.id)

/-- Claim-side per-message filter: inside list content keep only the
parts `keepPart` accepts. -/
def filterMessage (m : AnthMessage) : AnthMessage :=
  { m with content := match m.content with
      | .parts ps => .parts (ps.filter (keepPart m.role))
      | other => other }

/-- Claim-side request filter (modelled from the words of claim C10):
drop messages whose role is neither `user` nor `assistant`, and inside
list content drop every part that `keepPart` rejects. -/
def dropUnrecognized (r : AnthropicBody) : AnthropicBody :=
  { r with messages :=
      (List.map filterMessage
        (r.messages.filter fun m => m.role = "user" || m.role = "assistant")) }

end Anthropic

/-! ## The router (`src/utils/router.py`) -/

namespace Router

/-- The `Router` table of the configuration file; a field is "set" when
present and truthy. -/
structure RouterConfig where
  longContext : Option String := none
  background : Option String := none
  think : Option String := none
  default : Option String := none

/-- Model selection (`get_use_model`, lines 21-43). -/
def get_use_model (request : AnthropicBody) (token_count : Nat) (config : RouterConfig) : String :=
  let model := request.model.getD ""
  if containsComma model then model
  else if token_count > 60000 && truthyOS config.longContext then
    config.longContext.getD ""
  else if strStartsWith model "claude-3-5-haiku" && truthyOS config.background then
    config.background.getD ""
  else if jtruthyOpt request.thinking && truthyOS config.think then
    config.think.getD ""
  else config.default.getD ""

/-- Token counting over one message content (`count_tokens_in_content`,
lines 45-64).  `enc` abstracts `len(enc.encode(·))` — tiktoken's
`cl100k_base` when importable, otherwise the `MockEncoder` fallback
`len(text) // 4`.  An absent content key was defaulted to `""` by the
caller (`message.get("content", "")`); an explicit `null` matches
neither `isinstance` branch and counts 0. -/
def count_tokens_in_content (enc : String → Nat) : MsgContent → Nat
  | .absent => enc ""
  | .nullv => 0
  | .str s => enc s
  | .parts ps =>
    ps.foldl (fun acc p =>
      if p.type = "text" then acc + enc (p.text.getD "")
      else if p.type = "tool_use" then acc + enc (jdump (p.input.getD (.obj .nil)))
      else if p.type = "tool_result" then
        acc + (match p.content.getD (.pstr "") with
          | .pstr s => enc s
          | .pjson j => enc (jdump j))
      else acc) 0

/-- The fallback encoder of the source (`MockEncoder.encode`), counting
`len(text) // 4`. -/
def mockEncoder (s : String) : Nat := s.length / 4

/-- Token counting over the `system` field (`router`, lines 104-114). -/
def systemTokens (enc : String → Nat) : SystemField → Nat
  | .absent => 0
  | .str s => enc s
  | .list items =>
    items.foldl (fun acc it =>
      if it.type = some "text" then
        acc + (match it.text with
          | .sstr s => enc s
          | .absent => enc ""
          | .snull => 0
          | .slist l => l.foldl (fun a tp => a + enc (tp.getD "")) 0)
      else acc) 0

/-- Token counting over the tools (`router`, lines 117-122). -/
def toolsTokens (enc : String → Nat) (tools : List AnthTool) : Nat :=
  tools.foldl (fun acc t =>
    let acc := if truthyOS t.description then
        acc + enc (t.name.getD "" ++ t.description.getD "")
      else acc
    if jtruthyOpt t.input_schema then acc + enc (jdump (t.input_schema.getD .null))
    else acc) 0

/-- The full token count computed by the router middleware. -/
def routerTokenCount (enc : String → Nat) (body : AnthropicBody) : Nat :=
  body.messages.foldl (fun acc m => acc + count_tokens_in_content enc m.content) 0
    + systemTokens enc body.system
    + toolsTokens enc body.tools

/-- The router middleware (`router`, lines 66-135): it computes the
token count, selects a model, and records it in the response headers —
explicitly without touching the request body (the source comments say
"获取应该使用的模型，但不修改请求对象").  It returns the (unchanged)
body together with the updated response headers. -/
def router (enc : String → Nat) (body : AnthropicBody) (config : RouterConfig)
    (headers : List (String × String)) : AnthropicBody × List (String × String) :=
  let token_count := routerTokenCount enc body
  let model := get_use_model body token_count config
  (body, ("X-Selected-Model", model) :: headers)

/-- Claim-side selection rules (modelled from the words of claim C3):
an ordered rule list where the first rule whose guard holds wins. -/
def firstMatch : List (Bool × String) → String → String
  | [], d => d
  | (b, v) :: rest, d => if b then v else firstMatch rest d

/-- Claim-side model selection: the four ordered rules of the
specification, falling through to `Router.default`. -/
def routerSpec (request : AnthropicBody) (token_count : Nat) (config : RouterConfig) : String :=
  let model := request.model.getD ""
  firstMatch
    [ (containsComma model, model),
      (decide (token_count > 60000) && truthyOS config.longContext, config.longContext.getD ""),
      (strStartsWith model "claude-3-5-haiku" && truthyOS config.background, config.background.getD ""),
      (jtruthyOpt request.thinking && truthyOS config.think, config.think.getD "") ]
    (config.default.getD "")

end Router

/-! ## The maxtoken transformer
(`src/pyllms/src/transformer/maxtoken_transformer.py`) -/

namespace MaxToken

/-- Truthiness of an optional integer (`None` and `0` are falsy). -/
def truthyOI : Option Int → Bool
  | none => false
  | some n => !(n == 0)

/-- The clamp (`MaxTokenTransformer.transform_request_in`, lines
16-29): when both the request's `max_tokens` and the configured limit
are truthy and the former exceeds the latter, replace it by the
limit. -/
def transform_request_in (max_tokens_opt : Option Int) (request : UnifiedChatRequest) :
    UnifiedChatRequest :=
  if truthyOI request.max_tokens && truthyOI max_tokens_opt
      && decide (request.max_tokens.getD 0 > max_tokens_opt.getD 0) then
    { request with max_tokens := max_tokens_opt }
  else request

end MaxToken

/-! ## The auth filter (`src/middleware/auth.py`) -/

namespace Auth

/-- Outcome of the middleware: pass through (`done()`), an early 401
return, or an uncaught `IndexError` from `auth_key.split(" ")[1]`. -/
inductive AuthResult where
  | pass : AuthResult
  | reject (status : Nat) (body : String) : AuthResult
  | indexError : AuthResult
deriving DecidableEq, Repr

/-- The request data read by the middleware. -/
structure AuthRequest where
  url : String
  authorization : Option String := none
  x_api_key : Option String := none

/-- The header value the middleware examines
(`request.headers.get("authorization") or request.headers.get("x-api-key")`):
the `authorization` header when truthy, else the `x-api-key` header. -/
def presented (req : AuthRequest) : Option String :=
  if truthyOS req.authorization then req.authorization else req.x_api_key

/-- The token the middleware compares against the configured key: the
second space-separated field when the header value starts with
`Bearer` (absent — an `IndexError` in the source — when there is no
space), else the raw header value. -/
def extractToken (ak : String) : Option String :=
  if strStartsWith ak "Bearer" then
    ((splitOnChar ' ' ak.data).get? 1).map (fun l => String.mk l)
  else some ak

/-- The middleware produced by `api_key_auth(config)` (lines 6-34). -/
def auth_middleware (apikey : Option String) (req : AuthRequest) : AuthResult :=
  if req.url = "/" || req.url = "/health" then .pass
  else if !truthyOS apikey then .pass
  else if !truthyOS (presented req) then .reject 401 "APIKEY is missing"
  else
    match extractToken ((presented req).getD "") with
    | none => .indexError
    | some token => if token = apikey.getD "" then .pass else .reject 401 "Invalid API key"

end Auth

/-! ## The provider registry (`src/pyllms/src/services/provider.py`) -/

namespace Provider

/-- A provider record (the `transformer` map plays no role in
registration or resolution and is omitted). -/
structure LLMProvider where
  name : String
  base_url : String
  api_key : String
  models : List String
deriving DecidableEq, Repr

/-- A route-table entry. -/
structure ModelRoute where
  provider : String
  model : String
  full_model : String
deriving DecidableEq, Repr

/-- The result of `resolve_model_route`. -/
structure RequestRouteInfo where
  provider : LLMProvider
  original_model : String
  target_model : String
deriving DecidableEq, Repr

/-- The two dictionaries of `ProviderService`. -/
structure ProviderState where
  providers : List (String × LLMProvider) := []
  model_routes : List (String × ModelRoute) := []
deriving DecidableEq, Repr

/-- Route registration for one provider (`register_provider`, lines
102-112): for each model, store the route under the `name,model` key
and, when the bare model key is still free, under the bare key too. -/
def registerRoutes (name : String) (models : List String)
    (routes : List (String × ModelRoute)) : List (String × ModelRoute) :=
  models.foldl (fun rt m =>
    let full := name ++ "," ++ m
    let route : ModelRoute := ⟨name, m, full⟩
    let rt1 := (full, route) :: rt
    if (alookup rt1 m).isNone then (m, route) :: rt1 else rt1) routes

/-- Provider registration (`register_provider`, lines 90-114; note the
source performs no duplicate-name check here — that check lives only in
the `POST /providers` route handler). -/
def register_provider (st : ProviderState) (req : LLMProvider) : ProviderState :=
  { providers := (req.name, req) :: st.providers,
    model_routes := registerRoutes req.name req.models st.model_routes }

/-- Route resolution (`resolve_model_route`, lines 189-203). -/
def resolve_model_route (st : ProviderState) (model_name : String) :
    Option RequestRouteInfo :=
  match alookup st.model_routes model_name with
  | none => none
  | some route =>
    match alookup st.providers route.provider with
    | none => none
    | some provider => some ⟨provider, model_name, route.model⟩

/-- A registry state reached by a sequence of registrations from the
empty state. -/
def registerAll (regs : List LLMProvider) : ProviderState :=
  regs.foldl register_provider {}

end Provider

/-! ## The response path of the pipeline
(`src/pyllms/src/api/routes.py`, `process_transformer_request`, from
the upstream call onwards, with the error translation of
`src/pyllms/src/api/middleware.py`) -/

namespace Routes

/-- The upstream HTTP response as seen by the pipeline. -/
structure UpstreamResponse where
  status_code : Nat
  body : String
  headers : List (String × String) := []

/-- The `ApiError` exception class of `middleware.py`. -/
structure ApiError where
  message : String
  status_code : Nat
  code : String
  error_type : String
deriving DecidableEq, Repr

/-- The `create_api_error` helper. -/
def create_api_error (message : String) (status_code : Nat) (code : String)
    (error_type : String := "api_error") : ApiError :=
  ⟨message, status_code, code, error_type⟩

/-- What the client finally receives. -/
inductive ClientResponse where
  | plain (status : Nat) (body : String) (headers : List (String × String)) : ClientResponse
  | streaming (status : Nat) (body : String) : ClientResponse
  | errorEnvelope (status : Nat) (message ty code : String) : ClientResponse
deriving Repr

/-- The response handling of `process_transformer_request` (lines
195-315): a non-200 upstream status raises an `ApiError` carrying the
upstream body in its message; a 200 response flows through the
provider/model `transform_response_out` hooks and the endpoint's
`transform_response_in` (each hook abstracted as a response function;
individual hook failures are swallowed by the source) and is then
returned, streaming or buffered. -/
def handleUpstream (respOuts : List (UpstreamResponse → UpstreamResponse))
    (respIn : UpstreamResponse → UpstreamResponse) (stream : Bool)
    (response : UpstreamResponse) : Except ApiError ClientResponse :=
  if response.status_code ≠ 200 then
    .error (create_api_error ("Error from provider: " ++ response.body)
      response.status_code "provider_response_error")
  else
    let fr := respOuts.foldl (fun r t => t r) response
    let fr := respIn fr
    if fr.status_code ≠ 200 then .ok (.plain fr.status_code fr.body fr.headers)
    else if stream then .ok (.streaming fr.status_code fr.body)
    else .ok (.plain fr.status_code fr.body fr.headers)

/-- The `error_handler` of `middleware.py` for `ApiError`s: a JSON
envelope `{"error": {"message", "type", "code"}}` with the error's
status. -/
def error_handler (e : ApiError) : ClientResponse :=
  .errorEnvelope e.status_code e.message e.error_type e.code

/-- The full handler: the body of `process_transformer_request` sits in
a blanket `try`/`except Exception` (line 316) which catches the
`ApiError` raised for a non-200 upstream status and re-raises a fresh
500 `request_processing_error`; FastAPI's exception handler then turns
that into the JSON envelope. -/
def process_transformer_request (respOuts : List (UpstreamResponse → UpstreamResponse))
    (respIn : UpstreamResponse → UpstreamResponse) (stream : Bool)
    (response : UpstreamResponse) : ClientResponse :=
  match handleUpstream respOuts respIn stream response with
  | .ok r => r
  | .error e =>
    error_handler
      (create_api_error ("Error processing request: " ++ e.message) 500
        "request_processing_error" "api_error")

/-- The status code of a client response. -/
def ClientResponse.status : ClientResponse → Nat
  | .plain s _ _ => s
  | .streaming s _ => s
  | .errorEnvelope s _ _ _ => s

/-- The body text of a client response (for the envelope, its
`message`). -/
def ClientResponse.bodyText : ClientResponse → String
  | .plain _ b _ => b
  | .streaming _ b => b
  | .errorEnvelope _ m _ _ => m

end Routes

/-! ## Analysis helpers for the converter's event stream -/

namespace Anthropic

/-- Is an event a `message_start`? -/
def isMS : SSEEvent → Bool
  | .messageStart _ _ => true
  | _ => false

/-- Is an event a `message_stop`? -/
def isMStop : SSEEvent → Bool
  | .messageStop => true
  | _ => false

/-- Is an event a `content_block_start`? -/
def isBlockStart : SSEEvent → Bool
  | .blockStart _ _ => true
  | _ => false

/-- Number of events satisfying a predicate. -/
def countEvents (p : SSEEvent → Bool) (evs : List SSEEvent) : Nat :=
  (evs.filter p).length

/-- One step of the block-discipline checker.  The pending state is the
index of the currently open unmatched block; a `content_block_start`
while a block is open, or a `content_block_stop` whose index differs
from the open block, is a violation (`none`). -/
def dStep (pending : Option Nat) (e : SSEEvent) : Option (Option Nat) :=
  match e with
  | .blockStart i _ =>
    match pending with
    | none => some (some i)
    | some _ => none
  | .blockStop i =>
    match pending with
    | some j => if i = j then some none else none
    | none => some none
  | _ => some pending

/-- Run the block-discipline checker over an event list. -/
def dRun : Option Nat → List SSEEvent → Option (Option Nat)
  | p, [] => some p
  | p, e :: rest =>
    match dStep p e with
    | some p' => dRun p' rest
    | none => none

/-- The block discipline exactly as claim C1 states it: every emitted
`content_block_start` is followed by a `content_block_stop` for the
same index, and until that stop arrives no `content_block_start` for a
different block is emitted. -/
def ClaimDiscipline (evs : List SSEEvent) : Prop :=
  ∀ l₁ i b l₂, evs = l₁ ++ SSEEvent.blockStart i b :: l₂ →
    ∃ l₃ l₄, l₂ = l₃ ++ SSEEvent.blockStop i :: l₄ ∧
      ∀ j b', SSEEvent.blockStart j b' ∈ l₃ → j = i ∧ b' = b

/-- Is a chunk an error chunk (skipped after emitting an `error`
event)? -/
def errChunk (c : Chunk) : Bool := jtruthyOpt c.error

/-- Does a chunk carry a truthy `finish_reason` in its first choice
(and get processed rather than skipped as an error)? -/
def finishChunk (c : Chunk) : Bool :=
  !errChunk c &&
    (match c.choices.head? with
     | some ch => truthyOS ch.finish_reason
     | none => false)

/-- Does a (processed) chunk carry a truthy text delta? -/
def contentChunk (c : Chunk) : Bool :=
  !errChunk c &&
    (match c.choices.head? with
     | some ch => truthyOS ch.delta.content
     | none => false)

/-- Does a (processed) chunk carry tool-call deltas? -/
def toolChunk (c : Chunk) : Bool :=
  !errChunk c &&
    (match c.choices.head? with
     | some ch => !ch.delta.tool_calls.isEmpty
     | none => false)

/-- No chunk carrying a text delta arrives strictly after a chunk
carrying tool-call deltas (the OpenAI streaming convention: content
precedes tool calls). -/
def noTextAfterToolB : List Chunk → Bool
  | [] => true
  | c :: rest =>
    if toolChunk c then rest.all (fun c' => !contentChunk c') && noTextAfterToolB rest
    else noTextAfterToolB rest

/-- Events the block-discipline checker passes through unchanged. -/
def dNeutral : SSEEvent → Bool
  | .blockStart _ _ => false
  | .blockStop _ => false
  | _ => true

/-- The open-block slot predicted from the stream state: after the
events emitted so far, a block is open exactly when the text block has
started or a tool call was registered (and the stream has not
finished), and it sits at `content_index`. -/
def pendOf (st : StreamState) : Option Nat :=
  if st.has_finished then none
  else if st.has_text_content_started || !st.tool_calls.isEmpty then some st.content_index
  else none

/-- Relation between the stream state and the checker's pending slot:
the slot agrees with the predicted one, or the predicted open block has
already been closed (the thinking signature path emits the closing
`content_block_stop` early without resetting the text/tool flags). -/
def RelPend (st : StreamState) (p : Option Nat) : Prop :=
  p = pendOf st ∨ p = none

/-- The `partial json` payload an event contributes to block `i`. -/
def pjAt (i : Nat) : SSEEvent → String
  | .blockDelta j (.inputJsonDelta s) => if j = i then s else ""
  | _ => ""

/-- Concatenation, in emission order, of all `input_json_delta`
payloads for block `i`. -/
def concatPJ (i : Nat) : List SSEEvent → String
  | [] => ""
  | e :: rest => pjAt i e ++ concatPJ i rest

end Anthropic

/-! ## Concrete inputs used by witnesses and counterexamples -/

namespace Examples

open Anthropic

/-- A well-formed two-chunk stream: a text delta, then a text delta
with a finish reason (the specification's end-to-end scenario 4). -/
def streamOk : List Chunk :=
  [ { model := some "x",
      choices := [ { delta := { content := some "Hel" } } ] },
    { choices := [ { delta := { content := some "lo" }, finish_reason := some "stop" } ] } ]

/-- A tool-call stream (the specification's end-to-end scenario 5):
two argument fragments for tool index 0, then a `tool_calls` finish. -/
def streamTool : List Chunk :=
  [ { choices := [ { delta := { tool_calls :=
        [ { index := 0, id := some "c1",
            function := { name := some "f", arguments := some "\x7b\"x\":" } } ] } } ] },
    { choices := [ { delta := { tool_calls :=
        [ { index := 0, function := { arguments := some "1\x7d" } } ] } } ] },
    { choices := [ { finish_reason := some "tool_calls" } ] } ]

/-- A stream in which a text delta arrives after a tool-call delta:
the converter then opens a text block while the tool block is open. -/
def streamToolThenText : List Chunk :=
  [ { choices := [ { delta := { tool_calls :=
        [ { index := 0, id := some "c1", function := { name := some "f" } } ] } } ] },
    { choices := [ { delta := { content := some "hi" } } ] },
    { choices := [ { finish_reason := some "stop" } ] } ]

/-- One SSE line carrying a complete text-delta chunk. -/
def wholeRead : String :=
  "data: \x7b\"choices\":[\x7b\"delta\":\x7b\"content\":\"Hello\"\x7d\x7d]\x7d\n"

/-- The first half of `wholeRead`, cut in the middle of the JSON
payload. -/
def readA : String := "data: \x7b\"choices\":[\x7b\"delta\":\x7b\"content\":"

/-- The second half of `wholeRead`. -/
def readB : String := "\"Hello\"\x7d\x7d]\x7d\n"

/-- A request body whose model is a bare name, together with a config
whose only routing target is `Router.default`. -/
def routedBody : AnthropicBody := { model := some "m" }

/-- A router table carrying only a default. -/
def routedConfig : Router.RouterConfig := { default := some "p,big" }

/-- A non-200 upstream response. -/
def failedUpstream : Routes.UpstreamResponse :=
  { status_code := 404, body := "upstream says no", headers := [("x-upstream", "1")] }

/-- Three registrations: the name `q` is registered twice (as the
config loader permits), then `r` registers the model `m` that `q`'s
first registration also carried. -/
def cexRegs : List Provider.LLMProvider :=
  [ ⟨"q", "http://q", "kq", ["m"]⟩,
    ⟨"q", "http://q", "kq", ["n"]⟩,
    ⟨"r", "http://r", "kr", ["m"]⟩ ]

/-- A single well-behaved registration. -/
def okRegs : List Provider.LLMProvider := [⟨"p", "http://p", "kp", ["m1", "m2"]⟩]

/-- A request whose `authorization` header starts with `Bearer` but
contains no space. -/
def bearerNoSpace : Auth.AuthRequest :=
  { url := "/v1/messages", authorization := some "Bearerfoo" }

/-- A request presenting the key `k` as `Bearer k`. -/
def bearerOk : Auth.AuthRequest :=
  { url := "/v1/messages", authorization := some "Bearer k" }

/-- An Anthropic request mixing recognised and unrecognised input: a
system message, an image part, an empty text part, a tool result and a
tool-free function role. -/
def mixedBody : AnthropicBody :=
  { model := some "claude",
    system := .str "be nice",
    messages :=
      [ { role := "user", content := .parts
            [ { type := "image", text := some "ignored" },
              { type := "text", text := some "" },
              { type := "text", text := some "hello" },
              { type := "tool_result", tool_use_id := some "t1",
                content := some (.pstr "done") } ] },
        { role := "function", content := .str "dropped" },
        { role := "assistant", content := .parts
            [ { type := "text", text := some "ok" },
              { type := "tool_use", id := some "t2", name := some "f",
                input := some (.obj (.cons "a" (.num 1) .nil)) },
              { type := "tool_use", id := none, name := some "g" } ] } ] }

end Examples

namespace Provider

/-- No provider name and no model name contains a comma (the comma is
the registry's separator between the two). -/
def NoCommas (regs : List LLMProvider) : Prop :=
  ∀ p ∈ regs, containsComma p.name = false ∧ ∀ m ∈ p.models, containsComma m = false

/-- Invariant tying a set of performed registrations (`done`) to the
registry state: every registered provider is found under its name and
vice versa; every `name,model` key resolves to its route; every owned
model has a bare binding; and every route-table entry is a well-formed
route owned by a registered provider, filed under its full or bare
key. -/
def RegInv (done : List LLMProvider) (st : ProviderState) : Prop :=
  (∀ p ∈ done, alookup st.providers p.name = some p)
  ∧ (∀ n pv, alookup st.providers n = some pv → pv ∈ done ∧ pv.name = n)
  ∧ (∀ p ∈ done, ∀ m ∈ p.models,
      alookup st.model_routes (p.name ++ "," ++ m) =
        some ⟨p.name, m, p.name ++ "," ++ m⟩)
  ∧ (∀ p ∈ done, ∀ m ∈ p.models, (alookup st.model_routes m).isSome = true)
  ∧ (∀ k route, alookup st.model_routes k = some route →
      route.full_model = route.provider ++ "," ++ route.model
      ∧ (∃ q ∈ done, q.name = route.provider ∧ route.model ∈ q.models)
      ∧ (k = route.full_model ∨ k = route.model))

end Provider

namespace Anthropic

/-- Invariant of the argument-fragment bookkeeping: for every tool call
on record, the block-index map agrees with the accumulator, the
concatenation of the `input_json_delta` payloads emitted so far at its
block index equals its accumulated `arguments`, and its block index is
at most the current content index; block indices of distinct tool
calls are distinct; and no `input_json_delta` has been emitted at all
when no tool call is on record, nor at any index beyond the current
content index. -/
def ArgsInv (st : StreamState) (evs : List SSEEvent) : Prop :=
  (∀ idx acc, alookup st.tool_calls idx = some acc →
      alookup st.tool_call_index_to_content_block_index idx = some acc.content_block_index
      ∧ concatPJ acc.content_block_index evs = acc.arguments
      ∧ acc.content_block_index ≤ st.content_index)
  ∧ (∀ idx idx' acc acc', alookup st.tool_calls idx = some acc →
      alookup st.tool_calls idx' = some acc' → idx ≠ idx' →
      acc.content_block_index ≠ acc'.content_block_index)
  ∧ (st.tool_calls = [] → ∀ i, concatPJ i evs = "")
  ∧ (∀ i, st.content_index < i → concatPJ i evs = "")

end Anthropic

/-! # Theorems -/

/-- The router's selection function agrees with the specification's
ordered rule list (shared helper). -/
theorem router_selection_eq_spec (request : AnthropicBody) (token_count : Nat)
    (config : Router.RouterConfig) :
    Router.get_use_model request token_count config =
      Router.routerSpec request token_count config := rfl

/-- C3: `get_use_model` returns the body's model unchanged when it
contains a comma; otherwise `Router.longContext` when the token count
strictly exceeds 60000 and that target is set (a count of exactly
60000 falls through); otherwise `Router.background` for models starting
with `claude-3-5-haiku`; otherwise `Router.think` for truthy
`thinking`; otherwise `Router.default` — rules evaluated in this
order, first match wins (stated as equality with the specification's
rule list). -/
theorem get_use_model_first_match (request : AnthropicBody) (token_count : Nat)
    (config : Router.RouterConfig) :
    Router.get_use_model request token_count config =
      Router.routerSpec request token_count config :=
  router_selection_eq_spec request token_count config

/-- C9: the maxtoken transformer's `transform_request_in` is
idempotent: a second application with the same option changes
nothing. -/
theorem maxtoken_request_in_idempotent (n : Option Int) (r : UnifiedChatRequest) :
    MaxToken.transform_request_in n (MaxToken.transform_request_in n r) =
      MaxToken.transform_request_in n r := by
  by_cases h : (MaxToken.truthyOI r.max_tokens && MaxToken.truthyOI n
      && decide (r.max_tokens.getD 0 > n.getD 0)) = true
  · have h1 : MaxToken.transform_request_in n r = { r with max_tokens := n } := by
      unfold MaxToken.transform_request_in
      rw [if_pos h]
    rw [h1]
    unfold MaxToken.transform_request_in
    rw [if_neg]
    intro hcond
    simp only [Bool.and_eq_true, decide_eq_true_eq] at hcond
    exact lt_irrefl _ hcond.2
  · have h1 : MaxToken.transform_request_in n r = r := by
      unfold MaxToken.transform_request_in
      rw [if_neg h]
    rw [h1]
    exact h1

/-- C4 (amended): the router middleware leaves the request body
entirely unchanged — in particular its `model` field — and records the
selected model (per the specification's rules) only in the
`X-Selected-Model` response header. -/
theorem router_annotates_header_only (enc : String → Nat) (body : AnthropicBody)
    (config : Router.RouterConfig) (headers : List (String × String)) :
    (Router.router enc body config headers).1 = body ∧
    (Router.router enc body config headers).2 =
      ("X-Selected-Model",
        Router.routerSpec body (Router.routerTokenCount enc body) config) :: headers := by
  refine ⟨rfl, ?_⟩
  show ("X-Selected-Model",
      Router.get_use_model body (Router.routerTokenCount enc body) config) :: headers = _
  rw [router_selection_eq_spec]

/-- C4 (counterexample): after the router runs on a body with bare
model `m` under a config whose default is `p,big`, the body's model is
still `m`, not the selected `p,big`: the router does not rewrite the
body. -/
theorem router_leaves_model_untouched :
    ((Router.router Router.mockEncoder Examples.routedBody Examples.routedConfig []).1).model
        = some "m"
  ∧ Router.get_use_model Examples.routedBody
      (Router.routerTokenCount Router.mockEncoder Examples.routedBody) Examples.routedConfig
        = "p,big"
  ∧ (some "m" : Option String) ≠ some "p,big" :=
  ⟨rfl, by decide, by decide⟩

/-- C6 (amended): a non-200 upstream response bypasses every
`transform_response_out`/`transform_response_in` hook (the result does
not depend on them), but it is not forwarded verbatim: the inner
`ApiError` carrying the upstream status is swallowed by the handler's
blanket `except` and re-raised as a 500 `request_processing_error`
JSON envelope whose message embeds the upstream body. -/
theorem non200_bypasses_transformers (respOuts : List (Routes.UpstreamResponse → Routes.UpstreamResponse))
    (respIn : Routes.UpstreamResponse → Routes.UpstreamResponse) (stream : Bool)
    (response : Routes.UpstreamResponse) (h : response.status_code ≠ 200) :
    Routes.process_transformer_request respOuts respIn stream response =
      .errorEnvelope 500 ("Error processing request: Error from provider: " ++ response.body)
        "api_error" "request_processing_error" := by
  unfold Routes.process_transformer_request Routes.handleUpstream
  rw [if_pos h]
  rfl

/-- C6 witness: the amended behaviour at a concrete 404 upstream
response. -/
theorem non200_bypasses_transformers_witness :
    Examples.failedUpstream.status_code ≠ 200 ∧
    Routes.process_transformer_request [] id false Examples.failedUpstream =
      .errorEnvelope 500
        ("Error processing request: Error from provider: " ++ Examples.failedUpstream.body)
        "api_error" "request_processing_error" :=
  ⟨by decide, non200_bypasses_transformers [] id false Examples.failedUpstream (by decide)⟩

/-- C6 (counterexample): a 404 upstream response reaches the client
with status 500 and an enveloped body, not with the upstream status
and body forwarded verbatim. -/
theorem non200_not_forwarded_verbatim :
    (Routes.process_transformer_request [] id false Examples.failedUpstream).status = 500
  ∧ (500 : Nat) ≠ 404
  ∧ (Routes.process_transformer_request [] id false Examples.failedUpstream).bodyText ≠
      Examples.failedUpstream.body :=
  ⟨rfl, by decide, by decide⟩

/-- C5: splitting the same SSE byte stream differently across TCP
reads changes the converter's output — a `data:` line cut in the middle
of its JSON payload is JSON-parsed immediately, fails, and is dropped;
the second fragment does not start with `data: ` and is skipped, so
the event is emitted zero times instead of once. -/
theorem stream_split_changes_output :
    Examples.readA ++ Examples.readB = Examples.wholeRead ∧
    Anthropic.processStream 0 [Examples.wholeRead] ≠
      Anthropic.processStream 0 [Examples.readA, Examples.readB] := by
  refine ⟨rfl, ?_⟩
  decide

/-- C8 (counterexample): with `APIKEY = "k"`, presenting the key
`Bearerfoo` (which differs from `k`) makes the middleware raise an
uncaught `IndexError` from `auth_key.split(" ")[1]` instead of
rejecting with `401 Invalid API key`. -/
theorem auth_bearer_no_space_crashes :
    Auth.auth_middleware (some "k") Examples.bearerNoSpace = .indexError
  ∧ Auth.AuthResult.indexError ≠ .reject 401 "Invalid API key" :=
  ⟨by decide, by decide⟩

/-- C8 (amended): on a non-health path with a truthy configured
`APIKEY`, the auth filter rejects `401 "APIKEY is missing"` when no
truthy key header is presented; for a presented key it compares the
extracted token (the field after `Bearer `, else the raw value) and
passes exactly on a match, rejecting `401 "Invalid API key"`
otherwise — except that a header starting with `Bearer` but containing
no space raises an uncaught `IndexError` instead of rejecting. -/
theorem auth_filter_cases (apikey : String) (req : Auth.AuthRequest)
    (h1 : req.url ≠ "/") (h2 : req.url ≠ "/health") (hkey : apikey ≠ "") :
    (truthyOS (Auth.presented req) = false →
        Auth.auth_middleware (some apikey) req = .reject 401 "APIKEY is missing")
  ∧ (∀ ak, Auth.presented req = some ak → ak ≠ "" →
        Auth.extractToken ak = none →
        Auth.auth_middleware (some apikey) req = .indexError)
  ∧ (∀ ak token, Auth.presented req = some ak → ak ≠ "" →
        Auth.extractToken ak = some token →
        Auth.auth_middleware (some apikey) req =
          (if token = apikey then .pass else .reject 401 "Invalid API key")) := by
  have hu : ¬ ((req.url = "/" || req.url = "/health") = true) := by
    simp [h1, h2]
  have hk : ¬ ((!truthyOS (some apikey)) = true) := by
    simp [truthyOS, hkey]
  refine ⟨?_, ?_, ?_⟩
  · intro hA
    unfold Auth.auth_middleware
    rw [if_neg hu, if_neg hk, if_pos (by rw [hA]; rfl)]
  · intro ak hpres hne hext
    unfold Auth.auth_middleware
    rw [if_neg hu, if_neg hk,
      if_neg (by rw [hpres]; simp [truthyOS, hne]), hpres]
    show (match Auth.extractToken ak with
      | none => Auth.AuthResult.indexError
      | some token => if token = apikey then .pass else .reject 401 "Invalid API key") = _
    rw [hext]
  · intro ak token hpres hne hext
    unfold Auth.auth_middleware
    rw [if_neg hu, if_neg hk,
      if_neg (by rw [hpres]; simp [truthyOS, hne]), hpres]
    show (match Auth.extractToken ak with
      | none => Auth.AuthResult.indexError
      | some token => if token = apikey then .pass else .reject 401 "Invalid API key") = _
    rw [hext]

/-- C8 witness: the amended behaviour at a concrete request presenting
`Bearer k` against the configured key `k`. -/
theorem auth_filter_cases_witness :
    (Examples.bearerOk.url ≠ "/" ∧ Examples.bearerOk.url ≠ "/health" ∧ ("k" : String) ≠ "")
  ∧ ((truthyOS (Auth.presented Examples.bearerOk) = false →
        Auth.auth_middleware (some "k") Examples.bearerOk = .reject 401 "APIKEY is missing")
    ∧ (∀ ak, Auth.presented Examples.bearerOk = some ak → ak ≠ "" →
          Auth.extractToken ak = none →
          Auth.auth_middleware (some "k") Examples.bearerOk = .indexError)
    ∧ (∀ ak token, Auth.presented Examples.bearerOk = some ak → ak ≠ "" →
          Auth.extractToken ak = some token →
          Auth.auth_middleware (some "k") Examples.bearerOk =
            (if token = "k" then .pass else .reject 401 "Invalid API key"))) :=
  ⟨⟨by decide, by decide, by decide⟩,
    auth_filter_cases "k" Examples.bearerOk (by decide) (by decide) (by decide)⟩

/-! ### String and association-list facts for the provider registry -/

/-- Splitting on the separating comma is injective when neither prefix
contains a comma (character-list version). -/
theorem comma_append_inj_chars {a c : List Char} (ha : ',' ∉ a) (hc : ',' ∉ c) :
    ∀ {b d : List Char}, a ++ ',' :: b = c ++ ',' :: d → a = c ∧ b = d := by
  induction a generalizing c with
  | nil =>
    intro b d h
    cases c with
    | nil => simpa using h
    | cons y c' =>
      rw [List.nil_append, List.cons_append, List.cons.injEq] at h
      exact absurd (h.1 ▸ List.mem_cons_self y c') hc
  | cons x a' ih =>
    intro b d h
    cases c with
    | nil =>
      rw [List.nil_append, List.cons_append, List.cons.injEq] at h
      exact absurd (h.1 ▸ List.mem_cons_self x a') ha
    | cons y c' =>
      rw [List.cons_append, List.cons_append, List.cons.injEq] at h
      obtain ⟨hxy, hrest⟩ := h
      have ha' : ',' ∉ a' := fun hmem => ha (List.mem_cons_of_mem _ hmem)
      have hc' : ',' ∉ c' := fun hmem => hc (List.mem_cons_of_mem _ hmem)
      obtain ⟨h1, h2⟩ := ih ha' hc' hrest
      exact ⟨by rw [hxy, h1], h2⟩

/-- Splitting on the separating comma is injective when neither prefix
contains a comma (string version). -/
theorem string_comma_inj {a b c d : String} (ha : containsComma a = false)
    (hc : containsComma c = false) (h : a ++ "," ++ b = c ++ "," ++ d) :
    a = c ∧ b = d := by
  have ha' : ',' ∉ a.data := by simpa [containsComma] using ha
  have hc' : ',' ∉ c.data := by simpa [containsComma] using hc
  have hdata : a.data ++ ',' :: b.data = c.data ++ ',' :: d.data := by
    have := congrArg String.data h
    simpa [String.data_append] using this
  obtain ⟨h1, h2⟩ := comma_append_inj_chars ha' hc' hdata
  exact ⟨String.ext h1, String.ext h2⟩

/-- A string of the shape `a ++ "," ++ b` always contains a comma. -/
theorem containsComma_append (a b : String) : containsComma (a ++ "," ++ b) = true := by
  simp [containsComma, String.data_append]

/-- Lookup through a cons (dict insert/overwrite). -/
theorem alookup_cons {α β : Type} [DecidableEq α] (k : α) (v : β) (l : List (α × β)) (key : α) :
    alookup ((k, v) :: l) key = if k = key then some v else alookup l key := rfl

/-- A present key stays present after an insert. -/
theorem alookup_cons_isSome {α β : Type} [DecidableEq α] (k : α) (v : β)
    (l : List (α × β)) (key : α) (h : (alookup l key).isSome = true) :
    (alookup ((k, v) :: l) key).isSome = true := by
  rw [alookup_cons]
  split <;> simp [h]

/-! ### Behaviour of `registerRoutes` -/

/-- `registerRoutes` only ever conses entries: any present key stays
present. -/
theorem registerRoutes_isSome_mono (n : String) (ms : List String) :
    ∀ (routes : List (String × Provider.ModelRoute)) (k : String),
      (alookup routes k).isSome = true →
      (alookup (Provider.registerRoutes n ms routes) k).isSome = true := by
  induction ms with
  | nil => intro routes k h; exact h
  | cons m ms ih =>
    intro routes k h
    show (alookup (Provider.registerRoutes n ms _) k).isSome = true
    apply ih
    dsimp only
    split
    · exact alookup_cons_isSome _ _ _ _ (alookup_cons_isSome _ _ _ _ h)
    · exact alookup_cons_isSome _ _ _ _ h

/-- Every lookup in the extended table is either the old binding or one
of the new routes of this registration, filed under its full or bare
key. -/
theorem registerRoutes_lookup (n : String) (ms : List String) :
    ∀ (routes : List (String × Provider.ModelRoute)) (k : String),
      alookup (Provider.registerRoutes n ms routes) k = alookup routes k
      ∨ ∃ m ∈ ms, (k = n ++ "," ++ m ∨ k = m) ∧
          alookup (Provider.registerRoutes n ms routes) k =
            some ⟨n, m, n ++ "," ++ m⟩ := by
  induction ms with
  | nil => intro routes k; exact Or.inl rfl
  | cons m ms ih =>
    intro routes k
    have hstep : Provider.registerRoutes n (m :: ms) routes =
        Provider.registerRoutes n ms
          (let full := n ++ "," ++ m
           let route : Provider.ModelRoute := ⟨n, m, full⟩
           let rt1 := (full, route) :: routes
           if (alookup rt1 m).isNone then (m, route) :: rt1 else rt1) := rfl
    rw [hstep]
    rcases ih _ k with h | ⟨m', hm', hk, hval⟩
    · rw [h]
      dsimp only
      split
      · rw [alookup_cons, alookup_cons]
        by_cases h1 : m = k
        · subst h1
          exact Or.inr ⟨m, List.mem_cons_self _ _, Or.inr rfl, by simp⟩
        · rw [if_neg h1]
          by_cases h2 : n ++ "," ++ m = k
          · subst h2
            exact Or.inr ⟨m, List.mem_cons_self _ _, Or.inl rfl, by simp⟩
          · rw [if_neg h2]
            exact Or.inl rfl
      · rw [alookup_cons]
        by_cases h2 : n ++ "," ++ m = k
        · subst h2
          exact Or.inr ⟨m, List.mem_cons_self _ _, Or.inl rfl, by simp⟩
        · rw [if_neg h2]
          exact Or.inl rfl
    · exact Or.inr ⟨m', List.mem_cons_of_mem _ hm', hk, hval⟩

/-- After registration, each `name,model` key of the registration maps
to its route (given comma-free names and models). -/
theorem registerRoutes_full (n : String) (ms : List String)
    (hn : containsComma n = false) (hms : ∀ m' ∈ ms, containsComma m' = false) :
    ∀ (routes : List (String × Provider.ModelRoute)) (m : String), m ∈ ms →
      alookup (Provider.registerRoutes n ms routes) (n ++ "," ++ m) =
        some ⟨n, m, n ++ "," ++ m⟩ := by
  induction ms with
  | nil => intro routes m hm; cases hm
  | cons m0 ms ih =>
    intro routes m hm
    rcases List.mem_cons.mp hm with rfl | hm'
    · -- the key of interest is bound by this step and must survive the rest
      have hstep : Provider.registerRoutes n (m :: ms) routes =
          Provider.registerRoutes n ms
            (let full := n ++ "," ++ m
             let route : Provider.ModelRoute := ⟨n, m, full⟩
             let rt1 := (full, route) :: routes
             if (alookup rt1 m).isNone then (m, route) :: rt1 else rt1) := rfl
      have hbound : alookup
          (let full := n ++ "," ++ m
           let route : Provider.ModelRoute := ⟨n, m, full⟩
           let rt1 := (full, route) :: routes
           if (alookup rt1 m).isNone then (m, route) :: rt1 else rt1)
          (n ++ "," ++ m) = some ⟨n, m, n ++ "," ++ m⟩ := by
        dsimp only
        split
        · rw [alookup_cons, if_neg, alookup_cons, if_pos rfl]
          intro he
          have hcm : containsComma m = true := by
            rw [he]; exact containsComma_append n m
          rw [hms m (List.mem_cons_self _ _)] at hcm
          cases hcm
        · rw [alookup_cons, if_pos rfl]
      rcases registerRoutes_lookup n ms _ (n ++ "," ++ m) with h | ⟨m', hm', hk, hval⟩
      · rw [hstep]
        dsimp only at hbound h ⊢
        rw [h]
        exact hbound
      · rcases hk with hk | hk
        · obtain ⟨h1, h2⟩ := string_comma_inj hn hn hk
          rw [hstep, hval, h2]
        · exfalso
          have hcm : containsComma m' = true := by
            rw [← hk]; exact containsComma_append n m
          rw [hms m' (List.mem_cons_of_mem _ hm')] at hcm
          cases hcm
    · show alookup (Provider.registerRoutes n ms _) (n ++ "," ++ m) = _
      exact ih (fun m' h => hms m' (List.mem_cons_of_mem _ h)) _ m hm'

/-- After registration, each model of the registration has a bare
binding. -/
theorem registerRoutes_bare (n : String) (ms : List String) :
    ∀ (routes : List (String × Provider.ModelRoute)) (m : String), m ∈ ms →
      (alookup (Provider.registerRoutes n ms routes) m).isSome = true := by
  induction ms with
  | nil => intro routes m hm; cases hm
  | cons m0 ms ih =>
    intro routes m hm
    rcases List.mem_cons.mp hm with rfl | hm'
    · show (alookup (Provider.registerRoutes n ms _) m).isSome = true
      apply registerRoutes_isSome_mono
      dsimp only
      split
      · rw [alookup_cons, if_pos rfl]; rfl
      · next hguard =>
        rw [Option.isSome_iff_ne_none]
        intro hnone
        exact hguard (by rw [hnone]; rfl)
    · exact ih _ m hm'

/-- Registering a provider with a fresh, comma-free name and comma-free
models preserves the registry invariant. -/
theorem register_step (done : List Provider.LLMProvider) (st : Provider.ProviderState)
    (r : Provider.LLMProvider) (hinv : Provider.RegInv done st)
    (hfresh : ∀ p ∈ done, p.name ≠ r.name)
    (hncr : containsComma r.name = false ∧ ∀ m ∈ r.models, containsComma m = false)
    (hncd : Provider.NoCommas done) :
    Provider.RegInv (r :: done) (Provider.register_provider st r) := by
  obtain ⟨inv1, inv2, inv3, inv4, inv5⟩ := hinv
  refine ⟨?_, ?_, ?_, ?_, ?_⟩
  · intro p hp
    rcases List.mem_cons.mp hp with rfl | hp'
    · show alookup ((p.name, p) :: st.providers) p.name = some p
      rw [alookup_cons, if_pos rfl]
    · show alookup ((r.name, r) :: st.providers) p.name = some p
      rw [alookup_cons, if_neg (fun h => hfresh p hp' h.symm)]
      exact inv1 p hp'
  · intro n pv h
    rw [show (Provider.register_provider st r).providers = (r.name, r) :: st.providers from rfl,
      alookup_cons] at h
    by_cases hn : r.name = n
    · rw [if_pos hn] at h
      obtain rfl := Option.some.inj h
      exact ⟨List.mem_cons_self _ _, hn⟩
    · rw [if_neg hn] at h
      obtain ⟨h1, h2⟩ := inv2 n pv h
      exact ⟨List.mem_cons_of_mem _ h1, h2⟩
  · intro p hp m hm
    rcases List.mem_cons.mp hp with rfl | hp'
    · exact registerRoutes_full p.name p.models hncr.1 hncr.2 st.model_routes m hm
    · rcases registerRoutes_lookup r.name r.models st.model_routes (p.name ++ "," ++ m)
        with h | ⟨m', hm', hk, hval⟩
      · show alookup (Provider.registerRoutes r.name r.models st.model_routes) _ = _
        rw [h]
        exact inv3 p hp' m hm
      · rcases hk with hk | hk
        · obtain ⟨h1, _⟩ := string_comma_inj (hncd p hp').1 hncr.1 hk
          exact absurd h1 (hfresh p hp')
        · exfalso
          have hcm : containsComma m' = true := by
            rw [← hk]; exact containsComma_append p.name m
          rw [hncr.2 m' hm'] at hcm
          cases hcm
  · intro p hp m hm
    rcases List.mem_cons.mp hp with rfl | hp'
    · exact registerRoutes_bare p.name p.models st.model_routes m hm
    · exact registerRoutes_isSome_mono r.name r.models st.model_routes m (inv4 p hp' m hm)
  · intro k route h
    rcases registerRoutes_lookup r.name r.models st.model_routes k
      with hh | ⟨m', hm', hk, hval⟩
    · rw [show (Provider.register_provider st r).model_routes =
          Provider.registerRoutes r.name r.models st.model_routes from rfl, hh] at h
      obtain ⟨h1, ⟨q, hq, hq2⟩, h3⟩ := inv5 k route h
      exact ⟨h1, ⟨q, List.mem_cons_of_mem _ hq, hq2⟩, h3⟩
    · rw [show (Provider.register_provider st r).model_routes =
          Provider.registerRoutes r.name r.models st.model_routes from rfl, hval] at h
      obtain rfl := Option.some.inj h
      refine ⟨rfl, ⟨r, List.mem_cons_self _ _, rfl, hm'⟩, ?_⟩
      exact hk

/-- Folding registrations with pairwise-distinct, comma-free names and
comma-free models preserves the invariant from any invariant state. -/
theorem registerAll_go (regs : List Provider.LLMProvider) :
    ∀ (done : List Provider.LLMProvider) (st : Provider.ProviderState),
      Provider.RegInv done st →
      (∀ r ∈ regs, ∀ p ∈ done, p.name ≠ r.name) →
      (regs.map Provider.LLMProvider.name).Nodup →
      Provider.NoCommas regs → Provider.NoCommas done →
      Provider.RegInv (regs.reverse ++ done) (regs.foldl Provider.register_provider st) := by
  induction regs with
  | nil =>
    intro done st hinv _ _ _ _
    simpa using hinv
  | cons r rs ih =>
    intro done st hinv hnames hnodup hnc hncd
    have hstep := register_step done st r hinv (hnames r (List.mem_cons_self _ _))
      ⟨(hnc r (List.mem_cons_self _ _)).1, (hnc r (List.mem_cons_self _ _)).2⟩ hncd
    have hnotin : r.name ∉ rs.map Provider.LLMProvider.name :=
      (List.nodup_cons.mp hnodup).1
    have hres := ih (r :: done) (Provider.register_provider st r) hstep
      (by
        intro r' hr' p hp
        rcases List.mem_cons.mp hp with rfl | hp'
        · intro hne
          exact hnotin (hne ▸ List.mem_map_of_mem Provider.LLMProvider.name hr')
        · exact hnames r' (List.mem_cons_of_mem _ hr') p hp')
      (List.nodup_cons.mp hnodup).2
      (fun q hq => hnc q (List.mem_cons_of_mem _ hq))
      (by
        intro q hq
        rcases List.mem_cons.mp hq with rfl | hq'
        · exact hnc q (List.mem_cons_self _ _)
        · exact hncd q hq')
    rw [show (r :: rs).foldl Provider.register_provider st =
        rs.foldl Provider.register_provider (Provider.register_provider st r) from rfl]
    rw [List.reverse_cons, List.append_assoc]
    simpa using hres

/-- The registry invariant holds for every state built by distinct-name,
comma-free registrations from the empty state. -/
theorem registerAll_inv (regs : List Provider.LLMProvider)
    (hnodup : (regs.map Provider.LLMProvider.name).Nodup)
    (hnc : Provider.NoCommas regs) :
    Provider.RegInv regs.reverse (Provider.registerAll regs) := by
  have h := registerAll_go regs [] {} ?base (by intro _ _ _ hp; cases hp) hnodup hnc
    (by intro _ hp; cases hp)
  · simpa using h
  · refine ⟨?_, ?_, ?_, ?_, ?_⟩
    · intro _ hp; cases hp
    · intro n pv h; cases h
    · intro _ hp; cases hp
    · intro _ hp; cases hp
    · intro k route h; cases h

/-- C7 (amended): in a registry built from registrations with
pairwise-distinct provider names and comma-free names and models, for
every registered provider `p` and model `m ∈ p.models`, resolving
`p.name ++ "," ++ m` yields provider `p` with target model `m`, and
resolving the bare `m` yields some registered provider owning `m`. -/
theorem provider_model_resolution (regs : List Provider.LLMProvider)
    (hnodup : (regs.map Provider.LLMProvider.name).Nodup)
    (hnc : Provider.NoCommas regs)
    (n : String) (p : Provider.LLMProvider)
    (hp : alookup (Provider.registerAll regs).providers n = some p)
    (m : String) (hm : m ∈ p.models) :
    Provider.resolve_model_route (Provider.registerAll regs) (p.name ++ "," ++ m) =
      some ⟨p, p.name ++ "," ++ m, m⟩
  ∧ ∃ q, alookup (Provider.registerAll regs).providers q.name = some q ∧ m ∈ q.models
      ∧ Provider.resolve_model_route (Provider.registerAll regs) m = some ⟨q, m, m⟩ := by
  obtain ⟨inv1, inv2, inv3, inv4, inv5⟩ := registerAll_inv regs hnodup hnc
  obtain ⟨hpmem, _⟩ := inv2 n p hp
  constructor
  · have h3 := inv3 p hpmem m hm
    have h1 := inv1 p hpmem
    unfold Provider.resolve_model_route
    rw [h3]
    dsimp only
    rw [h1]
  · have h4 := inv4 p hpmem m hm
    obtain ⟨route, hroute⟩ := Option.isSome_iff_exists.mp h4
    obtain ⟨hfull, ⟨q, hq, hqname, hqm⟩, hkey⟩ := inv5 m route hroute
    have hmnc : containsComma m = false :=
      (hnc p (List.mem_reverse.mp hpmem)).2 m hm
    have hkey' : m = route.model := by
      rcases hkey with hk | hk
      · exfalso
        have hcm : containsComma m = true := by
          rw [hk, hfull]; exact containsComma_append _ _
        rw [hmnc] at hcm
        cases hcm
      · exact hk
    refine ⟨q, inv1 q hq, hkey' ▸ hqm, ?_⟩
    unfold Provider.resolve_model_route
    rw [hroute]
    dsimp only
    rw [← hqname, inv1 q hq]
    dsimp only
    rw [← hkey']

/-- C7 witness: the amended behaviour on a concrete one-provider
registry. -/
theorem provider_model_resolution_witness :
    ((Examples.okRegs.map Provider.LLMProvider.name).Nodup
      ∧ Provider.NoCommas Examples.okRegs
      ∧ alookup (Provider.registerAll Examples.okRegs).providers "p" =
          some ⟨"p", "http://p", "kp", ["m1", "m2"]⟩
      ∧ "m1" ∈ (⟨"p", "http://p", "kp", ["m1", "m2"]⟩ : Provider.LLMProvider).models)
  ∧ (Provider.resolve_model_route (Provider.registerAll Examples.okRegs)
        ((⟨"p", "http://p", "kp", ["m1", "m2"]⟩ : Provider.LLMProvider).name ++ "," ++ "m1") =
        some ⟨⟨"p", "http://p", "kp", ["m1", "m2"]⟩,
          (⟨"p", "http://p", "kp", ["m1", "m2"]⟩ : Provider.LLMProvider).name ++ "," ++ "m1", "m1"⟩
    ∧ ∃ q, alookup (Provider.registerAll Examples.okRegs).providers q.name = some q
        ∧ "m1" ∈ q.models
        ∧ Provider.resolve_model_route (Provider.registerAll Examples.okRegs) "m1" =
            some ⟨q, "m1", "m1"⟩) :=
  ⟨⟨by decide, by unfold Provider.NoCommas; decide, by decide, by decide⟩,
    provider_model_resolution Examples.okRegs (by decide)
      (by unfold Provider.NoCommas; decide) "p"
      ⟨"p", "http://p", "kp", ["m1", "m2"]⟩ (by decide) "m1" (by decide)⟩

/-- C7 (counterexample): after registering `q` twice (the second time
without model `m`) and then `r` with model `m`, the provider `r` is
registered and owns `m`, yet resolving the bare `m` returns the stale
route to `q`, whose current models list does not contain `m`. -/
theorem bare_resolution_returns_non_owner :
    alookup (Provider.registerAll Examples.cexRegs).providers "r" =
      some ⟨"r", "http://r", "kr", ["m"]⟩
  ∧ "m" ∈ (⟨"r", "http://r", "kr", ["m"]⟩ : Provider.LLMProvider).models
  ∧ (Provider.resolve_model_route (Provider.registerAll Examples.cexRegs) "m").map
      (fun ri => (ri.provider.name, ri.provider.models.contains "m")) = some ("q", false) := by
  refine ⟨by decide, by decide, by decide⟩

/-! ### Lemmas for the request-out filter (C10) -/

/-- Pre-filtering by a weaker predicate does not change a filter. -/
theorem filter_absorb {α : Type} (k q : α → Bool) (h : ∀ a, q a = true → k a = true) :
    ∀ l : List α, (l.filter k).filter q = l.filter q := by
  intro l
  induction l with
  | nil => rfl
  | cons x xs ih =>
    by_cases hk : k x = true
    · rw [List.filter_cons_of_pos hk]
      by_cases hq : q x = true
      · rw [List.filter_cons_of_pos hq, List.filter_cons_of_pos hq, ih]
      · rw [List.filter_cons_of_neg (by simpa using hq),
          List.filter_cons_of_neg (by simpa using hq), ih]
    · have hq : ¬ q x = true := fun hq => hk (h x hq)
      rw [List.filter_cons_of_neg (by simpa using hk),
        List.filter_cons_of_neg (by simpa using hq), ih]

/-- A truthy text part is kept by the claim's filter for any role. -/
theorem keepPart_text (role : String) (p : ContentPart)
    (h : (p.type = "text" && truthyOS p.text) = true) :
    Anthropic.keepPart role p = true := by
  simp only [Bool.and_eq_true] at h
  simp [Anthropic.keepPart, h.1, h.2]

/-- A tool-result part is kept by the claim's filter in a user
message. -/
theorem keepPart_user_tool (p : ContentPart)
    (h : (p.type = "tool_result" && truthyOS p.tool_use_id) = true) :
    Anthropic.keepPart "user" p = true := by
  simp only [Bool.and_eq_true] at h
  simp [Anthropic.keepPart, h.1, h.2]

/-- A tool-use part with an id is kept by the claim's filter in an
assistant message. -/
theorem keepPart_assistant_tool (p : ContentPart)
    (h : (p.type = "tool_use" && truthyOS p.id) = true) :
    Anthropic.keepPart "assistant" p = true := by
  simp only [Bool.and_eq_true] at h
  simp [Anthropic.keepPart, h.1, h.2]

/-- Messages with roles outside `user`/`assistant` translate to
nothing. -/
theorem convMessage_other (m : AnthMessage)
    (h : (m.role = "user" || m.role = "assistant") = false) :
    Anthropic.convMessage m = [] := by
  unfold Anthropic.convMessage
  rw [if_neg (by simp [h] : ¬ (m.role = "user" || m.role = "assistant") = true)]

/-- The claim's per-message filter does not change the translation. -/
theorem convMessage_filterMessage (m : AnthMessage) :
    Anthropic.convMessage (Anthropic.filterMessage m) = Anthropic.convMessage m := by
  by_cases hrole : (m.role = "user" || m.role = "assistant") = true
  · have hrole' := hrole
    simp only [Bool.or_eq_true, decide_eq_true_eq] at hrole'
    cases hc : m.content with
    | parts ps =>
      rcases hrole' with hu' | ha'
      · unfold Anthropic.convMessage Anthropic.filterMessage
        rw [hc, hu']
        dsimp only
        rw [filter_absorb _ _ keepPart_user_tool ps,
          filter_absorb _ _ (keepPart_text "user") ps]
        simp
      · unfold Anthropic.convMessage Anthropic.filterMessage
        rw [hc, ha']
        dsimp only
        rw [filter_absorb _ _ (keepPart_text "assistant") ps,
          filter_absorb _ _ keepPart_assistant_tool ps]
        simp
    | absent =>
      unfold Anthropic.convMessage Anthropic.filterMessage
      rw [hc]
    | nullv =>
      unfold Anthropic.convMessage Anthropic.filterMessage
      rw [hc]
    | str s =>
      unfold Anthropic.convMessage Anthropic.filterMessage
      rw [hc]
  · rw [convMessage_other _ (by simpa using hrole)]
    rw [convMessage_other _ (by simpa [Anthropic.filterMessage] using hrole)]

/-- Dropping unrecognised messages and parts leaves the translated
message list unchanged. -/
theorem conv_flatten_filter (msgs : List AnthMessage) :
    (((msgs.filter fun m => (m.role = "user" || m.role = "assistant")).map
        Anthropic.filterMessage).map Anthropic.convMessage).flatten =
      (msgs.map Anthropic.convMessage).flatten := by
  induction msgs with
  | nil => rfl
  | cons m ms ih =>
    by_cases h : (m.role = "user" || m.role = "assistant") = true
    · simp only [List.filter_cons, h, if_true, List.map_cons, List.flatten_cons]
      rw [convMessage_filterMessage, ih]
    · have h' : (decide (m.role = "user") || decide (m.role = "assistant")) = false := by
        simpa using h
      simp only [List.filter_cons, h', Bool.false_eq_true, if_false]
      rw [List.map_cons, List.flatten_cons, convMessage_other m h', ih]
      rfl

/-- Any list-content message produced by the translation carries only
truthy text parts. -/
theorem convMessage_uparts (m : AnthMessage) (msg : UMessage)
    (hmem : msg ∈ Anthropic.convMessage m) (ps : List ContentPart)
    (hps : msg.content = UContent.uparts ps) :
    ∀ p ∈ ps, (p.type = "text" && truthyOS p.text) = true := by
  unfold Anthropic.convMessage at hmem
  by_cases hrole : (m.role = "user" || m.role = "assistant") = true
  · rw [if_pos hrole] at hmem
    cases hc : m.content with
    | absent =>
      rw [hc] at hmem
      cases hmem
    | nullv =>
      rw [hc] at hmem
      cases hmem
    | str s =>
      rw [hc] at hmem
      try dsimp only at hmem
      obtain rfl := List.mem_singleton.mp hmem
      simp at hps
    | parts ps' =>
      rw [hc] at hmem
      try dsimp only at hmem
      by_cases hu : m.role = "user"
      · rw [if_pos hu] at hmem
        try dsimp only at hmem
        rcases List.mem_append.mp hmem with htool | htext
        · obtain ⟨p0, hp0, rfl⟩ := List.mem_map.mp htool
          simp at hps
        · split at htext
        
          · obtain rfl := List.mem_singleton.mp htext
            simp only [UContent.uparts.injEq] at hps
            subst hps
            intro p hp
            exact (List.mem_filter.mp hp).2
          · cases htext
      · rw [if_neg hu] at hmem
        try dsimp only at hmem
        obtain rfl := List.mem_singleton.mp hmem
        dsimp only at hps
        split at hps
        · simp at hps
        · simp at hps
  · rw [if_neg hrole] at hmem
    cases hmem

/-- C10: the Anthropic request translation silently drops unrecognised
input — filtering away non-user/assistant messages, image parts,
empty-text parts and all other unrecognised parts first does not
change its output — and every content part that survives into a
list-content unified message is a truthy text part (so image and
empty-text parts never reach the unified request). -/
theorem request_out_drops_unrecognized (r : AnthropicBody) :
    Anthropic.transform_request_out (Anthropic.dropUnrecognized r) =
      Anthropic.transform_request_out r
  ∧ ∀ msg ∈ (Anthropic.transform_request_out r).messages, ∀ ps,
      msg.content = UContent.uparts ps →
      ∀ p ∈ ps, p.type = "text" ∧ truthyOS p.text = true := by
  constructor
  · unfold Anthropic.transform_request_out Anthropic.dropUnrecognized
    dsimp only
    rw [conv_flatten_filter r.messages]
  · intro msg hmem ps hps p hp
    unfold Anthropic.transform_request_out at hmem
    try dsimp only at hmem
    rcases List.mem_append.mp hmem with hsys | hconv
    · cases hs : r.system with
      | absent =>
        rw [hs] at hsys
        cases hsys
      | str s =>
        rw [hs] at hsys
        obtain rfl := List.mem_singleton.mp hsys
        simp at hps
      | list items =>
        rw [hs] at hsys
        obtain rfl := List.mem_singleton.mp hsys
        simp at hps
    · obtain ⟨l, hl, hmsg⟩ := List.mem_flatten.mp hconv
      obtain ⟨m', _, rfl⟩ := List.mem_map.mp hl
      have h := convMessage_uparts m' msg hmsg ps hps p hp
      simp only [Bool.and_eq_true, decide_eq_true_eq] at h
      exact h

/-! ### Lemmas for the argument-fragment invariant (C2) -/

open Anthropic in
/-- `concatPJ` distributes over list append. -/
theorem concatPJ_append (i : Nat) (a b : List SSEEvent) :
    concatPJ i (a ++ b) = concatPJ i a ++ concatPJ i b := by
  induction a with
  | nil =>
    show concatPJ i b = "" ++ concatPJ i b
    rw [String.empty_append]
  | cons e rest ih =>
    show pjAt i e ++ concatPJ i (rest ++ b) = (pjAt i e ++ concatPJ i rest) ++ concatPJ i b
    rw [ih, String.append_assoc]

open Anthropic in
/-- Carrying the invariant across a step that emits no
`input_json_delta` and leaves the tool bookkeeping unchanged while not
decreasing the content index. -/
theorem ArgsInv_carry (st st' : StreamState) (evs new : List SSEEvent)
    (hinv : ArgsInv st evs)
    (htc : st'.tool_calls = st.tool_calls)
    (hmap : st'.tool_call_index_to_content_block_index =
      st.tool_call_index_to_content_block_index)
    (hcur : st.content_index ≤ st'.content_index)
    (hpj : ∀ i, concatPJ i new = "") :
    ArgsInv st' (evs ++ new) := by
  obtain ⟨inv1, inv2, inv3, inv4⟩ := hinv
  refine ⟨?_, ?_, ?_, ?_⟩
  · intro idx acc h
    rw [htc] at h
    obtain ⟨h1, h2, h3⟩ := inv1 idx acc h
    exact ⟨hmap ▸ h1, by rw [concatPJ_append, hpj, String.append_empty, h2],
      le_trans h3 hcur⟩
  · intro idx idx' acc acc' h h' hne
    rw [htc] at h h'
    exact inv2 idx idx' acc acc' h h' hne
  · intro hempty i
    rw [concatPJ_append, hpj, String.append_empty]
    exact inv3 (htc ▸ hempty) i
  · intro i hi
    rw [concatPJ_append, hpj, String.append_empty]
    exact inv4 i (lt_of_le_of_lt hcur hi)

open Anthropic in
/-- The thinking phase emits no argument fragments. -/
theorem phaseThinking_no_pj (st : StreamState) (ch : Choice) (i : Nat) :
    concatPJ i (phaseThinking st ch).2 = "" := by
  unfold phaseThinking
  cases ch.delta.thinking with
  | none => rfl
  | some t =>
    dsimp only
    split
    · cases t.signature with
      | some sig => rfl
      | none =>
        dsimp only
        cases t.content with
        | some cont =>
          dsimp only
          split
          · rfl
          · rfl
        | none => rfl
    · rfl

open Anthropic in
/-- The thinking phase leaves the tool bookkeeping unchanged and never
decreases the content index. -/
theorem phaseThinking_state (st : StreamState) (ch : Choice) :
    (phaseThinking st ch).1.tool_calls = st.tool_calls
    ∧ (phaseThinking st ch).1.tool_call_index_to_content_block_index =
        st.tool_call_index_to_content_block_index
    ∧ st.content_index ≤ (phaseThinking st ch).1.content_index
    ∧ (phaseThinking st ch).1.has_finished = st.has_finished
    ∧ (phaseThinking st ch).1.has_text_content_started = st.has_text_content_started
    ∧ (phaseThinking st ch).1.has_started = st.has_started := by
  unfold phaseThinking
  cases ch.delta.thinking with
  | none => exact ⟨rfl, rfl, le_refl _, rfl, rfl, rfl⟩
  | some t =>
    dsimp only
    split
    · cases t.signature with
      | some sig => exact ⟨rfl, rfl, Nat.le_succ _, rfl, rfl, rfl⟩
      | none =>
        dsimp only
        cases t.content with
        | some cont =>
          dsimp only
          split
          · exact ⟨rfl, rfl, le_refl _, rfl, rfl, rfl⟩
          · exact ⟨rfl, rfl, le_refl _, rfl, rfl, rfl⟩
        | none => exact ⟨rfl, rfl, le_refl _, rfl, rfl, rfl⟩
    · exact ⟨rfl, rfl, le_refl _, rfl, rfl, rfl⟩

open Anthropic in
/-- The text phase emits no argument fragments. -/
theorem phaseText_no_pj (st : StreamState) (ch : Choice) (i : Nat) :
    concatPJ i (phaseText st ch).2 = "" := by
  unfold phaseText
  cases ch.delta.content with
  | none => rfl
  | some cont =>
    dsimp only
    split
    · rfl
    · dsimp only
      split
      · rfl
      · rfl

open Anthropic in
/-- The text phase leaves the tool bookkeeping and the content index
unchanged. -/
theorem phaseText_state (st : StreamState) (ch : Choice) :
    (phaseText st ch).1.tool_calls = st.tool_calls
    ∧ (phaseText st ch).1.tool_call_index_to_content_block_index =
        st.tool_call_index_to_content_block_index
    ∧ (phaseText st ch).1.content_index = st.content_index
    ∧ (phaseText st ch).1.has_finished = st.has_finished := by
  unfold phaseText
  cases ch.delta.content with
  | none => exact ⟨rfl, rfl, rfl, rfl⟩
  | some cont =>
    dsimp only
    split
    · exact ⟨rfl, rfl, rfl, rfl⟩
    · dsimp only
      split
      · exact ⟨rfl, rfl, rfl, rfl⟩
      · exact ⟨rfl, rfl, rfl, rfl⟩

open Anthropic in
/-- The finish phase emits no argument fragments. -/
theorem phaseFinish_no_pj (st : StreamState) (ch : Choice) (u : ChunkUsage) (i : Nat) :
    concatPJ i (phaseFinish st ch u).2 = "" := by
  unfold phaseFinish
  cases ch.finish_reason with
  | none => rfl
  | some fr =>
    dsimp only
    split
    · rfl
    · dsimp only
      split
      · rfl
      · rfl

open Anthropic in
/-- The finish phase leaves the tool bookkeeping and the content index
unchanged. -/
theorem phaseFinish_state (st : StreamState) (ch : Choice) (u : ChunkUsage) :
    (phaseFinish st ch u).1.tool_calls = st.tool_calls
    ∧ (phaseFinish st ch u).1.tool_call_index_to_content_block_index =
        st.tool_call_index_to_content_block_index
    ∧ (phaseFinish st ch u).1.content_index = st.content_index := by
  unfold phaseFinish
  cases ch.finish_reason with
  | none => exact ⟨rfl, rfl, rfl⟩
  | some fr =>
    dsimp only
    split
    · exact ⟨rfl, rfl, rfl⟩
    · exact ⟨rfl, rfl, rfl⟩

open Anthropic in
/-- Upgrading a synthetic id/name pair in place preserves the
invariant: the accumulator's arguments and block index are
untouched. -/
theorem ArgsInv_upgrade (st : StreamState) (evs : List SSEEvent) (idx : Int)
    (existing : ToolCallAcc) (hl : alookup st.tool_calls idx = some existing)
    (newId newName : String) (hinv : ArgsInv st evs) :
    ArgsInv { st with tool_calls :=
        (idx, { existing with id := newId, name := newName }) :: st.tool_calls } evs := by
  obtain ⟨inv1, inv2, inv3, inv4⟩ := hinv
  refine ⟨?_, ?_, ?_, ?_⟩
  · intro idx' acc' h'
    rw [show ({ st with tool_calls := (idx, { existing with id := newId, name := newName })
        :: st.tool_calls } : StreamState).tool_calls =
        (idx, { existing with id := newId, name := newName }) :: st.tool_calls from rfl,
      alookup_cons] at h'
    by_cases he : idx = idx'
    · rw [if_pos he] at h'
      obtain rfl := Option.some.inj h'
      obtain ⟨h1, h2, h3⟩ := inv1 idx existing hl
      exact ⟨he ▸ h1, h2, h3⟩
    · rw [if_neg he] at h'
      exact inv1 idx' acc' h'
  · intro i1 i2 a1 a2 h1 h2 hne
    rw [show ({ st with tool_calls := (idx, { existing with id := newId, name := newName })
        :: st.tool_calls } : StreamState).tool_calls =
        (idx, { existing with id := newId, name := newName }) :: st.tool_calls from rfl,
      alookup_cons] at h1 h2
    by_cases he1 : idx = i1
    · rw [if_pos he1] at h1
      obtain rfl := Option.some.inj h1
      by_cases he2 : idx = i2
      · exact absurd (he1 ▸ he2.symm) (fun h => hne h.symm)
      · rw [if_neg he2] at h2
        exact inv2 i1 i2 existing a2 (he1 ▸ hl) h2 hne
    · rw [if_neg he1] at h1
      by_cases he2 : idx = i2
      · rw [if_pos he2] at h2
        obtain rfl := Option.some.inj h2
        exact inv2 i1 i2 a1 existing h1 (he2 ▸ hl) hne
      · rw [if_neg he2] at h2
        exact inv2 i1 i2 a1 a2 h1 h2 hne
  · intro hempty
    cases hempty
  · exact inv4

open Anthropic in
/-- The fragment contribution of a single `input_json_delta` event. -/
theorem concatPJ_single_eq (i j : Nat) (s : String) :
    concatPJ i [SSEEvent.blockDelta j (DeltaBody.inputJsonDelta s)] =
      if j = i then s else "" := by
  show pjAt i (SSEEvent.blockDelta j (DeltaBody.inputJsonDelta s)) ++ "" = _
  rw [String.append_empty]
  rfl

open Anthropic in
/-- The argument-fragment step preserves the invariant when the events
accumulated so far in this step carry no fragments. -/
theorem ArgsInv_argsStep (st : StreamState) (accEvs : List SSEEvent) (tc : ToolCallDelta)
    (evs : List SSEEvent) (hinv : ArgsInv st evs)
    (hacc : ∀ i, concatPJ i accEvs = "") :
    ArgsInv (argsStep st accEvs tc).1 (evs ++ (argsStep st accEvs tc).2) := by
  obtain ⟨inv1, inv2, inv3, inv4⟩ := hinv
  cases ha : tc.function.arguments with
  | none =>
    simp only [argsStep, ha]
    exact ArgsInv_carry st st evs accEvs ⟨inv1, inv2, inv3, inv4⟩ rfl rfl (le_refl _) hacc
  | some args =>
    by_cases hz : args = ""
    · simp only [argsStep, ha, if_pos hz]
      exact ArgsInv_carry st st evs accEvs ⟨inv1, inv2, inv3, inv4⟩ rfl rfl (le_refl _) hacc
    · cases hl : alookup st.tool_calls tc.index with
      | none =>
        simp only [argsStep, ha, if_neg hz, hl]
        exact ArgsInv_carry st st evs accEvs ⟨inv1, inv2, inv3, inv4⟩ rfl rfl (le_refl _) hacc
      | some cur =>
        obtain ⟨hmap, hconcat, hble⟩ := inv1 tc.index cur hl
        simp only [argsStep, ha, if_neg hz, hl, hmap]
        refine ⟨?_, ?_, ?_, ?_⟩
        · intro idx' acc' h'
          rw [alookup_cons] at h'
          by_cases he : tc.index = idx'
          · rw [if_pos he] at h'
            obtain rfl := Option.some.inj h'
            refine ⟨he ▸ hmap, ?_, hble⟩
            dsimp only
            rw [concatPJ_append, concatPJ_append, hacc, concatPJ_single_eq, if_pos rfl,
              String.empty_append, hconcat]
          · rw [if_neg he] at h'
            obtain ⟨h1, h2, h3⟩ := inv1 idx' acc' h'
            refine ⟨h1, ?_, h3⟩
            have hbne : cur.content_block_index ≠ acc'.content_block_index :=
              inv2 tc.index idx' cur acc' hl h' he
            rw [concatPJ_append, concatPJ_append, hacc, concatPJ_single_eq, if_neg hbne,
              String.empty_append, String.append_empty, h2]
        · intro i1 i2 a1 a2 h1 h2 hne
          rw [alookup_cons] at h1 h2
          by_cases he1 : tc.index = i1
          · rw [if_pos he1] at h1
            obtain rfl := Option.some.inj h1
            by_cases he2 : tc.index = i2
            · exact absurd (he1 ▸ he2.symm) (fun h => hne h.symm)
            · rw [if_neg he2] at h2
              exact inv2 i1 i2 cur a2 (he1 ▸ hl) h2 hne
          · rw [if_neg he1] at h1
            by_cases he2 : tc.index = i2
            · rw [if_pos he2] at h2
              obtain rfl := Option.some.inj h2
              exact inv2 i1 i2 a1 cur h1 (he2 ▸ hl) hne
            · rw [if_neg he2] at h2
              exact inv2 i1 i2 a1 a2 h1 h2 hne
        · intro hempty
          cases hempty
        · intro i hi
          dsimp only at hi
          have hbne : cur.content_block_index ≠ i :=
            fun h => absurd (h ▸ hi) (not_lt_of_le hble)
          rw [concatPJ_append, concatPJ_append, hacc, concatPJ_single_eq, if_neg hbne,
            String.empty_append, String.append_empty, inv4 i hi]

open Anthropic in
/-- Adding a fresh tool accumulator with an empty buffer at a fresh
block index preserves the invariant. -/
theorem ArgsInv_addtool (st : StreamState) (evs : List SSEEvent) (hinv : ArgsInv st evs)
    (idx : Int) (tcId tcName : String) (b newCur : Nat)
    (hb_evs : concatPJ b evs = "")
    (hb_le : b ≤ newCur)
    (hcur_le : st.content_index ≤ newCur)
    (hb_fresh : ∀ idx' acc', alookup st.tool_calls idx' = some acc' →
      acc'.content_block_index ≠ b) :
    ArgsInv { st with
      content_index := newCur,
      tool_calls := (idx, ⟨tcId, tcName, "", b⟩) :: st.tool_calls,
      tool_call_index_to_content_block_index :=
        (idx, b) :: st.tool_call_index_to_content_block_index } evs := by
  obtain ⟨inv1, inv2, inv3, inv4⟩ := hinv
  refine ⟨?_, ?_, ?_, ?_⟩
  · intro idx' acc' h'
    rw [show ({ st with
        content_index := newCur,
        tool_calls := (idx, ⟨tcId, tcName, "", b⟩) :: st.tool_calls,
        tool_call_index_to_content_block_index :=
          (idx, b) :: st.tool_call_index_to_content_block_index } : StreamState).tool_calls =
        (idx, ⟨tcId, tcName, "", b⟩) :: st.tool_calls from rfl, alookup_cons] at h'
    show alookup ((idx, b) :: st.tool_call_index_to_content_block_index) idx' =
        some acc'.content_block_index ∧ _ ∧ acc'.content_block_index ≤ newCur
    rw [alookup_cons]
    by_cases he : idx = idx'
    · rw [if_pos he] at h'
      obtain rfl := Option.some.inj h'
      rw [if_pos he]
      exact ⟨rfl, hb_evs, hb_le⟩
    · rw [if_neg he] at h'
      rw [if_neg he]
      obtain ⟨h1, h2, h3⟩ := inv1 idx' acc' h'
      exact ⟨h1, h2, le_trans h3 hcur_le⟩
  · intro i1 i2 a1 a2 h1 h2 hne
    rw [show ({ st with
        content_index := newCur,
        tool_calls := (idx, ⟨tcId, tcName, "", b⟩) :: st.tool_calls,
        tool_call_index_to_content_block_index :=
          (idx, b) :: st.tool_call_index_to_content_block_index } : StreamState).tool_calls =
        (idx, ⟨tcId, tcName, "", b⟩) :: st.tool_calls from rfl, alookup_cons] at h1 h2
    by_cases he1 : idx = i1
    · rw [if_pos he1] at h1
      obtain rfl := Option.some.inj h1
      by_cases he2 : idx = i2
      · exact absurd (he1 ▸ he2.symm) (fun h => hne h.symm)
      · rw [if_neg he2] at h2
        exact fun h => hb_fresh i2 a2 h2 (h.symm)
    · rw [if_neg he1] at h1
      by_cases he2 : idx = i2
      · rw [if_pos he2] at h2
        obtain rfl := Option.some.inj h2
        exact hb_fresh i1 a1 h1
      · rw [if_neg he2] at h2
        exact inv2 i1 i2 a1 a2 h1 h2 hne
  · intro hempty
    cases hempty
  · intro i hi
    exact inv4 i (lt_of_le_of_lt hcur_le hi)

open Anthropic in
/-- One tool-call delta preserves the invariant. -/
theorem ArgsInv_toolStep (ts : Nat) (st : StreamState) (tc : ToolCallDelta)
    (evs : List SSEEvent) (hinv : ArgsInv st evs) :
    ArgsInv (toolStep ts st tc).1 (evs ++ (toolStep ts st tc).2) := by
  cases hl : alookup st.tool_calls tc.index with
  | some existing =>
    simp only [toolStep, hl]
    by_cases hup : (truthyOS tc.id && truthyOS tc.function.name
        && strStartsWith existing.id "call_" && strStartsWith existing.name "tool_") = true
    · rw [if_pos hup]
      exact ArgsInv_argsStep _ [] tc evs
        (ArgsInv_upgrade st evs tc.index existing hl _ _ hinv) (fun i => rfl)
    · rw [if_neg hup]
      exact ArgsInv_argsStep st [] tc evs hinv (fun i => rfl)
  | none =>
    simp only [toolStep, hl]
    by_cases hc : (st.has_text_content_started || !st.tool_calls.isEmpty) = true
    · rw [if_pos hc]
      dsimp only
      refine ArgsInv_argsStep _ _ tc evs ?_ (fun i => rfl)
      exact ArgsInv_addtool st evs hinv tc.index _ _ (st.content_index + 1)
        (st.content_index + 1) (hinv.2.2.2 _ (Nat.lt_succ_self _)) (le_refl _)
        (Nat.le_succ _)
        (fun idx' acc' h' hb => absurd ((hinv.1 idx' acc' h').2.2)
          (by rw [hb]; exact Nat.not_succ_le_self _))
    · rw [if_neg hc]
      dsimp only
      have hempty : st.tool_calls = [] := by
        simp only [Bool.or_eq_true, Bool.not_eq_true', not_or] at hc
        exact List.isEmpty_iff.mp (by simpa using hc.2)
      refine ArgsInv_argsStep _ _ tc evs ?_ (fun i => rfl)
      exact ArgsInv_addtool st evs hinv tc.index _ _ st.content_index st.content_index
        (hinv.2.2.1 hempty _) (le_refl _) (le_refl _)
        (fun idx' acc' h' => by rw [hempty] at h'; cases h')

open Anthropic in
/-- State-only invariant transfer (no new events). -/
theorem ArgsInv_state (st st' : StreamState) (evs : List SSEEvent)
    (hinv : ArgsInv st evs)
    (htc : st'.tool_calls = st.tool_calls)
    (hmap : st'.tool_call_index_to_content_block_index =
      st.tool_call_index_to_content_block_index)
    (hcur : st.content_index ≤ st'.content_index) :
    ArgsInv st' evs := by
  have h := ArgsInv_carry st st' evs [] hinv htc hmap hcur (fun i => rfl)
  simpa using h

open Anthropic in
/-- Folding the tool-call deltas of one chunk preserves the
invariant. -/
theorem ArgsInv_toolFold (ts : Nat) (tcs : List ToolCallDelta) :
    ∀ (st : StreamState) (evs : List SSEEvent), ArgsInv st evs →
      ArgsInv (toolFold ts st tcs).1 (evs ++ (toolFold ts st tcs).2) := by
  induction tcs with
  | nil =>
    intro st evs h
    show ArgsInv st (evs ++ [])
    rw [List.append_nil]
    exact h
  | cons tc rest ih =>
    intro st evs h
    have heq : toolFold ts st (tc :: rest) =
        ((toolFold ts (toolStep ts st tc).1 rest).1,
         (toolStep ts st tc).2 ++ (toolFold ts (toolStep ts st tc).1 rest).2) := rfl
    rw [heq]
    dsimp only
    rw [← List.append_assoc]
    exact ih _ _ (ArgsInv_toolStep ts st tc evs h)

open Anthropic in
/-- The tool phase of one chunk preserves the invariant. -/
theorem ArgsInv_phaseTool (ts : Nat) (st : StreamState) (ch : Choice)
    (evs : List SSEEvent) (hinv : ArgsInv st evs) :
    ArgsInv (phaseTool ts st ch).1 (evs ++ (phaseTool ts st ch).2) := by
  unfold phaseTool
  split
  · exact ArgsInv_toolFold ts ch.delta.tool_calls st evs hinv
  · simpa using hinv


open Anthropic in
/-- Chaining the four choice-driven phases preserves the invariant. -/
theorem ArgsInv_phases (ts : Nat) (st2 : StreamState) (ch : Choice) (u : ChunkUsage)
    (evs2 : List SSEEvent) (h2 : ArgsInv st2 evs2) :
    ArgsInv (phaseFinish (phaseTool ts (phaseText (phaseThinking st2 ch).1 ch).1 ch).1 ch u).1
      ((((evs2 ++ (phaseThinking st2 ch).2) ++ (phaseText (phaseThinking st2 ch).1 ch).2)
        ++ (phaseTool ts (phaseText (phaseThinking st2 ch).1 ch).1 ch).2)
        ++ (phaseFinish (phaseTool ts (phaseText (phaseThinking st2 ch).1 ch).1 ch).1 ch u).2) := by
  have h3 := ArgsInv_carry st2 (phaseThinking st2 ch).1 evs2 (phaseThinking st2 ch).2 h2
    (phaseThinking_state st2 ch).1 (phaseThinking_state st2 ch).2.1
    (phaseThinking_state st2 ch).2.2.1 (phaseThinking_no_pj st2 ch)
  have h4 := ArgsInv_carry (phaseThinking st2 ch).1 (phaseText (phaseThinking st2 ch).1 ch).1
    (evs2 ++ (phaseThinking st2 ch).2) (phaseText (phaseThinking st2 ch).1 ch).2 h3
    (phaseText_state (phaseThinking st2 ch).1 ch).1
    (phaseText_state (phaseThinking st2 ch).1 ch).2.1
    (le_of_eq (phaseText_state (phaseThinking st2 ch).1 ch).2.2.1.symm)
    (phaseText_no_pj (phaseThinking st2 ch).1 ch)
  have h5 := ArgsInv_phaseTool ts (phaseText (phaseThinking st2 ch).1 ch).1 ch _ h4
  exact ArgsInv_carry (phaseTool ts (phaseText (phaseThinking st2 ch).1 ch).1 ch).1
    (phaseFinish (phaseTool ts (phaseText (phaseThinking st2 ch).1 ch).1 ch).1 ch u).1 _
    (phaseFinish (phaseTool ts (phaseText (phaseThinking st2 ch).1 ch).1 ch).1 ch u).2 h5
    (phaseFinish_state (phaseTool ts (phaseText (phaseThinking st2 ch).1 ch).1 ch).1 ch u).1
    (phaseFinish_state (phaseTool ts (phaseText (phaseThinking st2 ch).1 ch).1 ch).1 ch u).2.1
    (le_of_eq (phaseFinish_state (phaseTool ts (phaseText (phaseThinking st2 ch).1 ch).1 ch).1
      ch u).2.2.symm)
    (phaseFinish_no_pj (phaseTool ts (phaseText (phaseThinking st2 ch).1 ch).1 ch).1 ch u)

open Anthropic in
/-- The start/thinking/text/tool/finish part of one chunk preserves the
invariant. -/
theorem ArgsInv_processChunkCore (ts : Nat) (st1 : StreamState) (c : Chunk)
    (evs : List SSEEvent) (hinv : ArgsInv st1 evs) :
    ArgsInv (processChunkCore ts st1 c).1 (evs ++ (processChunkCore ts st1 c).2) := by
  unfold processChunkCore
  by_cases hs : (!st1.has_started && !st1.has_finished) = true
  · rw [if_pos hs]
    dsimp only
    have h2 : ArgsInv { st1 with has_started := true }
        (evs ++ [SSEEvent.messageStart ("msg_" ++ toString ts) st1.model]) :=
      ArgsInv_carry st1 _ evs _ hinv rfl rfl (le_refl _) (fun i => rfl)
    cases hch : c.choices.head? with
    | none => exact h2
    | some ch =>
      dsimp only
      simpa [List.append_assoc] using
        ArgsInv_phases ts { st1 with has_started := true } ch c.usage
          (evs ++ [SSEEvent.messageStart ("msg_" ++ toString ts) st1.model]) h2
  · rw [if_neg hs]
    dsimp only
    cases hch : c.choices.head? with
    | none =>
      show ArgsInv st1 (evs ++ [])
      rw [List.append_nil]
      exact hinv
    | some ch =>
      dsimp only
      simpa [List.append_assoc] using ArgsInv_phases ts st1 ch c.usage evs hinv

open Anthropic in
/-- Processing one chunk preserves the invariant. -/
theorem ArgsInv_processChunk (ts : Nat) (st : StreamState) (c : Chunk)
    (evs : List SSEEvent) (hinv : ArgsInv st evs) :
    ArgsInv (processChunk ts st c).1 (evs ++ (processChunk ts st c).2) := by
  unfold processChunk
  by_cases herr : jtruthyOpt c.error = true
  · rw [if_pos herr]
    exact ArgsInv_carry st st evs _ hinv rfl rfl (le_refl _) (fun i => rfl)
  · rw [if_neg herr]
    cases hm : c.model with
    | some m =>
      dsimp only
      by_cases hz : m = ""
      · rw [if_pos hz]
        exact ArgsInv_processChunkCore ts st c evs hinv
      · rw [if_neg hz]
        exact ArgsInv_processChunkCore ts _ c evs
          (ArgsInv_state st _ evs hinv rfl rfl (le_refl _))
    | none =>
      dsimp only
      exact ArgsInv_processChunkCore ts st c evs hinv

open Anthropic in
/-- Processing a chunk list preserves the invariant. -/
theorem ArgsInv_processChunks (ts : Nat) (cs : List Chunk) :
    ∀ (st : StreamState) (evs : List SSEEvent), ArgsInv st evs →
      ArgsInv (processChunks ts st cs).1 (evs ++ (processChunks ts st cs).2) := by
  induction cs with
  | nil =>
    intro st evs h
    show ArgsInv st (evs ++ [])
    rw [List.append_nil]
    exact h
  | cons c rest ih =>
    intro st evs h
    by_cases hf : st.has_finished = true
    · have heq : processChunks ts st (c :: rest) = (st, []) := by
        simp only [processChunks, if_pos hf]
      rw [heq]
      show ArgsInv st (evs ++ [])
      rw [List.append_nil]
      exact h
    · have heq : processChunks ts st (c :: rest) =
          ((processChunks ts (processChunk ts st c).1 rest).1,
           (processChunk ts st c).2 ++ (processChunks ts (processChunk ts st c).1 rest).2) := by
        simp only [processChunks, if_neg hf]
      rw [heq]
      dsimp only
      rw [← List.append_assoc]
      exact ih _ _ (ArgsInv_processChunk ts st c evs h)

/-- C2: for every tool-use block opened by the streaming converter,
concatenating in emission order the `partial_json` payloads of the
`input_json_delta` events emitted at that block's index yields exactly
the final accumulated `arguments` string of that tool call — fragments
are forwarded in arrival order, never reordered and never
deduplicated. -/
theorem tool_args_concat (ts : Nat) (chunks : List Anthropic.Chunk) (idx : Int)
    (acc : Anthropic.ToolCallAcc)
    (h : alookup (Anthropic.processChunks ts {} chunks).1.tool_calls idx = some acc) :
    Anthropic.concatPJ acc.content_block_index (Anthropic.processChunks ts {} chunks).2 =
      acc.arguments := by
  have hinit : Anthropic.ArgsInv {} [] := by
    refine ⟨?_, ?_, ?_, ?_⟩
    · intro _ _ hx
      cases hx
    · intro _ _ _ _ hx
      cases hx
    · intro _ i
      rfl
    · intro i _
      rfl
  have hfin := ArgsInv_processChunks ts chunks {} [] hinit
  obtain ⟨inv1, _, _, _⟩ := hfin
  have h2 := (inv1 idx acc h).2.1
  simpa using h2

/-- C2 witness: the spec's tool-call stream scenario — two fragments
concatenating to the full arguments string. -/
theorem tool_args_concat_witness :
    alookup (Anthropic.processChunks 0 {} Examples.streamTool).1.tool_calls 0 =
      some ⟨"c1", "f", "\x7b\"x\":1\x7d", 0⟩
  ∧ Anthropic.concatPJ 0 (Anthropic.processChunks 0 {} Examples.streamTool).2 =
      "\x7b\"x\":1\x7d" :=
  ⟨by decide,
    tool_args_concat 0 Examples.streamTool 0 ⟨"c1", "f", "\x7b\"x\":1\x7d", 0⟩ (by decide)⟩

/-! ### C1: block discipline of the emitted event stream -/

open Anthropic in
/-- Unfolding equation of the discipline checker on a cons. -/
theorem dRun_cons (p : Option Nat) (e : SSEEvent) (rest : List SSEEvent) :
    dRun p (e :: rest) = match dStep p e with
      | some q => dRun q rest
      | none => none := rfl

open Anthropic in
/-- Checker-neutral events leave the pending slot unchanged. -/
theorem dStep_neutral (p : Option Nat) (e : SSEEvent) (h : dNeutral e = true) :
    dStep p e = some p := by
  cases e with
  | messageStart a b => rfl
  | blockStart i b => simp [dNeutral] at h
  | blockDelta i d => rfl
  | blockStop i => simp [dNeutral] at h
  | messageDelta r a b => rfl
  | messageStop => rfl
  | errorEvent m => rfl

open Anthropic in
/-- A run of checker-neutral events leaves the pending slot unchanged. -/
theorem dRun_neutral (p : Option Nat) (evs : List SSEEvent) (h : evs.all dNeutral = true) :
    dRun p evs = some p := by
  induction evs with
  | nil => rfl
  | cons e rest ih =>
    rw [List.all_cons, Bool.and_eq_true] at h
    rw [dRun_cons, dStep_neutral p e h.1]
    exact ih h.2

open Anthropic in
/-- The discipline checker composes over list append. -/
theorem dRun_append (p : Option Nat) (a b : List SSEEvent) :
    dRun p (a ++ b) = match dRun p a with
      | some q => dRun q b
      | none => none := by
  induction a generalizing p with
  | nil => rfl
  | cons e rest ih =>
    rw [List.cons_append, dRun_cons, dRun_cons]
    cases hstep : dStep p e with
    | some q =>
      dsimp only
      exact ih q
    | none => rfl

open Anthropic in
/-- Forward composition of two successful checker runs. -/
theorem dRun_append_some (p q r : Option Nat) (a b : List SSEEvent)
    (ha : dRun p a = some q) (hb : dRun q b = some r) :
    dRun p (a ++ b) = some r := by
  rw [dRun_append, ha]
  exact hb

open Anthropic in
/-- A successful run over an append splits into successful runs. -/
theorem dRun_append_split (p : Option Nat) (a b : List SSEEvent) (r : Option Nat)
    (h : dRun p (a ++ b) = some r) :
    ∃ q, dRun p a = some q ∧ dRun q b = some r := by
  rw [dRun_append] at h
  cases ha : dRun p a with
  | none =>
    rw [ha] at h
    exact Option.noConfusion h
  | some q =>
    rw [ha] at h
    exact ⟨q, rfl, h⟩

open Anthropic in
/-- A checker-neutral event is not a `content_block_start`. -/
theorem dNeutral_not_start (e : SSEEvent) (h : dNeutral e = true) :
    isBlockStart e = false := by
  cases e with
  | messageStart a b => rfl
  | blockStart i b => simp [dNeutral] at h
  | blockDelta i d => rfl
  | blockStop i => rfl
  | messageDelta r a b => rfl
  | messageStop => rfl
  | errorEvent m => rfl

open Anthropic in
/-- When the checker closes an open block `i`, the event list contains
the matching `content_block_stop i`, and no `content_block_start`
precedes it. -/
theorem dRun_closes (i : Nat) (l : List SSEEvent) (h : dRun (some i) l = some none) :
    ∃ l₃ l₄, l = l₃ ++ SSEEvent.blockStop i :: l₄ ∧ ∀ e ∈ l₃, isBlockStart e = false := by
  induction l with
  | nil => exact absurd (Option.some.inj h) (by simp)
  | cons e rest ih =>
    by_cases hne : dNeutral e = true
    · rw [dRun_cons, dStep_neutral _ _ hne] at h
      obtain ⟨l₃, l₄, heq, hns⟩ := ih h
      refine ⟨e :: l₃, l₄, by rw [heq, List.cons_append], ?_⟩
      intro e' he'
      rcases List.mem_cons.mp he' with rfl | hmem
      · exact dNeutral_not_start e' hne
      · exact hns e' hmem
    · cases e with
      | blockStart j b =>
        rw [dRun_cons] at h
        exact Option.noConfusion h
      | blockStop j =>
        rw [dRun_cons] at h
        simp only [dStep] at h
        by_cases hj : j = i
        · rw [if_pos hj] at h
          exact ⟨[], rest, by rw [hj, List.nil_append], fun e' he' => absurd he' (List.not_mem_nil e')⟩
        · rw [if_neg hj] at h
          exact Option.noConfusion h
      | messageStart a b => exact absurd rfl hne
      | blockDelta i d => exact absurd rfl hne
      | messageDelta r a b => exact absurd rfl hne
      | messageStop => exact absurd rfl hne
      | errorEvent m => exact absurd rfl hne

open Anthropic in
/-- A stream the checker accepts with all blocks closed satisfies the
block discipline as claim C1 states it. -/
theorem dRun_discipline (evs : List SSEEvent) (h : dRun none evs = some none) :
    ClaimDiscipline evs := by
  intro l₁ i b l₂ heq
  subst heq
  obtain ⟨q, h1, h2⟩ := dRun_append_split none l₁ (SSEEvent.blockStart i b :: l₂) none h
  rw [dRun_cons] at h2
  cases q with
  | some j => exact Option.noConfusion h2
  | none =>
    obtain ⟨l₃, l₄, hsplit, hns⟩ := dRun_closes i l₂ h2
    refine ⟨l₃, l₄, hsplit, ?_⟩
    intro j b' hmem
    exact absurd (hns _ hmem) (by simp [isBlockStart])

open Anthropic in
/-- Event counting distributes over append. -/
theorem countEvents_append (p : SSEEvent → Bool) (a b : List SSEEvent) :
    countEvents p (a ++ b) = countEvents p a + countEvents p b := by
  simp [countEvents, List.filter_append]

open Anthropic in
/-- A list without matching events counts zero. -/
theorem countEvents_zero (p : SSEEvent → Bool) (evs : List SSEEvent)
    (h : ∀ e ∈ evs, p e = false) : countEvents p evs = 0 := by
  rw [countEvents, List.length_eq_zero]
  exact List.filter_eq_nil_iff.mpr (fun e he => by simp [h e he])

open Anthropic in
/-- Message-free event lists are closed under append. -/
theorem msgfree_append (a b : List SSEEvent)
    (ha : ∀ e ∈ a, isMS e = false ∧ isMStop e = false)
    (hb : ∀ e ∈ b, isMS e = false ∧ isMStop e = false) :
    ∀ e ∈ a ++ b, isMS e = false ∧ isMStop e = false := by
  intro e he
  rcases List.mem_append.mp he with h | h
  · exact ha e h
  · exact hb e h


open Anthropic in
/-- The text phase emits neither `message_start` nor `message_stop`. -/
theorem phaseText_events (st : StreamState) (ch : Choice) :
    ∀ e ∈ (phaseText st ch).2, isMS e = false ∧ isMStop e = false := by
  unfold phaseText
  cases ch.delta.content with
  | none => intro e he; cases he
  | some cont =>
    dsimp only
    split
    · intro e he
      cases he
    · dsimp only
      split
      · intro e he
        simp only [List.cons_append, List.nil_append, List.mem_cons,
          List.not_mem_nil, or_false] at he
        rcases he with rfl | rfl
        · exact ⟨rfl, rfl⟩
        · exact ⟨rfl, rfl⟩
      · intro e he
        simp only [List.nil_append, List.mem_cons, List.not_mem_nil, or_false] at he
        rcases he with rfl
        exact ⟨rfl, rfl⟩

open Anthropic in
/-- The argument step appends at most one `input_json_delta`. -/
theorem argsStep_events (st : StreamState) (acc : List SSEEvent) (tc : ToolCallDelta) :
    (argsStep st acc tc).2 = acc
    ∨ ∃ bi s, (argsStep st acc tc).2 =
        acc ++ [SSEEvent.blockDelta bi (DeltaBody.inputJsonDelta s)] := by
  unfold argsStep
  cases ha : tc.function.arguments with
  | none => exact Or.inl rfl
  | some args =>
    dsimp only
    split
    · exact Or.inl rfl
    · cases hl : alookup st.tool_calls tc.index with
      | none => exact Or.inl rfl
      | some cur =>
        dsimp only
        cases hm : alookup st.tool_call_index_to_content_block_index tc.index with
        | some bi => exact Or.inr ⟨bi, args, rfl⟩
        | none => exact Or.inl rfl

open Anthropic in
/-- The tool step emits only block events. -/
theorem toolStep_events (ts : Nat) (st : StreamState) (tc : ToolCallDelta) :
    ∀ e ∈ (toolStep ts st tc).2, isMS e = false ∧ isMStop e = false := by
  cases hl : alookup st.tool_calls tc.index with
  | none =>
    simp only [toolStep, hl]
    by_cases hc : (st.has_text_content_started || !st.tool_calls.isEmpty) = true
    · rw [if_pos hc]
      dsimp only
      rcases argsStep_events _ _ tc with hE | ⟨bi, s, hE⟩ <;> rw [hE]
      · intro e he
        simp only [List.cons_append, List.nil_append, List.mem_cons,
          List.not_mem_nil, or_false] at he
        rcases he with rfl | rfl
        · exact ⟨rfl, rfl⟩
        · exact ⟨rfl, rfl⟩
      · intro e he
        simp only [List.cons_append, List.nil_append, List.mem_cons, List.mem_append,
          List.not_mem_nil, or_false] at he
        rcases he with rfl | rfl | rfl
        · exact ⟨rfl, rfl⟩
        · exact ⟨rfl, rfl⟩
        · exact ⟨rfl, rfl⟩
    · rw [if_neg hc]
      dsimp only
      rcases argsStep_events _ _ tc with hE | ⟨bi, s, hE⟩ <;> rw [hE]
      · intro e he
        simp only [List.nil_append, List.mem_cons, List.not_mem_nil, or_false] at he
        rcases he with rfl
        exact ⟨rfl, rfl⟩
      · intro e he
        simp only [List.nil_append, List.cons_append, List.mem_cons, List.mem_append,
          List.not_mem_nil, or_false] at he
        rcases he with rfl | rfl
        · exact ⟨rfl, rfl⟩
        · exact ⟨rfl, rfl⟩
  | some existing =>
    simp only [toolStep, hl]
    by_cases hup : (truthyOS tc.id && truthyOS tc.function.name
        && strStartsWith existing.id "call_" && strStartsWith existing.name "tool_") = true
    · rw [if_pos hup]
      rcases argsStep_events _ [] tc with hE | ⟨bi, s, hE⟩ <;> rw [hE]
      · intro e he
        cases he
      · intro e he
        simp only [List.nil_append, List.mem_cons, List.not_mem_nil, or_false] at he
        rcases he with rfl
        exact ⟨rfl, rfl⟩
    · rw [if_neg hup]
      rcases argsStep_events _ [] tc with hE | ⟨bi, s, hE⟩ <;> rw [hE]
      · intro e he
        cases he
      · intro e he
        simp only [List.nil_append, List.mem_cons, List.not_mem_nil, or_false] at he
        rcases he with rfl
        exact ⟨rfl, rfl⟩

open Anthropic in
/-- The tool fold emits only block events. -/
theorem toolFold_events (ts : Nat) (tcs : List ToolCallDelta) : ∀ st : StreamState,
    ∀ e ∈ (toolFold ts st tcs).2, isMS e = false ∧ isMStop e = false := by
  induction tcs with
  | nil =>
    intro st e he
    cases he
  | cons tc rest ih =>
    intro st
    have heq : toolFold ts st (tc :: rest) =
        ((toolFold ts (toolStep ts st tc).1 rest).1,
         (toolStep ts st tc).2 ++ (toolFold ts (toolStep ts st tc).1 rest).2) := rfl
    rw [heq]
    exact msgfree_append _ _ (toolStep_events ts st tc) (ih (toolStep ts st tc).1)

open Anthropic in
/-- The tool phase emits only block events. -/
theorem phaseTool_events (ts : Nat) (st : StreamState) (ch : Choice) :
    ∀ e ∈ (phaseTool ts st ch).2, isMS e = false ∧ isMStop e = false := by
  unfold phaseTool
  split
  · exact toolFold_events ts ch.delta.tool_calls st
  · intro e he
    cases he

open Anthropic in
/-- Finish handling: a truthy `finish_reason` on an unfinished stream
marks the stream finished and emits exactly one `message_stop` (and no
`message_start`); otherwise the phase does nothing. -/
theorem phaseFinish_events (st : StreamState) (ch : Choice) (u : ChunkUsage) :
    (truthyOS ch.finish_reason && !st.has_finished) = true
      ∧ (phaseFinish st ch u).1.has_finished = true
      ∧ countEvents isMS (phaseFinish st ch u).2 = 0
      ∧ countEvents isMStop (phaseFinish st ch u).2 = 1
    ∨ (truthyOS ch.finish_reason && !st.has_finished) = false
      ∧ phaseFinish st ch u = (st, []) := by
  unfold phaseFinish
  cases hfr : ch.finish_reason with
  | none => exact Or.inr ⟨rfl, rfl⟩
  | some fr =>
    dsimp only
    by_cases hz : (fr = "" || st.has_finished) = true
    · rw [if_pos hz]
      refine Or.inr ⟨?_, rfl⟩
      have hz' : fr = "" ∨ st.has_finished = true := by simpa using hz
      rcases hz' with h | h
      · simp [truthyOS, h]
      · simp [h]
    · rw [if_neg hz]
      simp only [Bool.or_eq_true, decide_eq_true_eq, not_or] at hz
      refine Or.inl ⟨?_, rfl, ?_, ?_⟩
      · have h1 : (fr == "") = false := by
          simpa using hz.1
        have h2 : st.has_finished = false := by
          simpa using hz.2
        simp [truthyOS, h1, h2]
      · by_cases hg : (st.has_text_content_started || !st.tool_calls.isEmpty) = true
        · rw [if_pos hg]
          rfl
        · rw [if_neg hg]
          rfl
      · by_cases hg : (st.has_text_content_started || !st.tool_calls.isEmpty) = true
        · rw [if_pos hg]
          rfl
        · rw [if_neg hg]
          rfl

open Anthropic in
/-- The text phase leaves `has_started` unchanged. -/
theorem phaseText_started (st : StreamState) (ch : Choice) :
    (phaseText st ch).1.has_started = st.has_started := by
  unfold phaseText
  cases ch.delta.content with
  | none => rfl
  | some cont =>
    dsimp only
    split
    · rfl
    · dsimp only
      split
      · rfl
      · rfl

open Anthropic in
/-- The finish phase leaves `has_started` and the text flag
unchanged. -/
theorem phaseFinish_started (st : StreamState) (ch : Choice) (u : ChunkUsage) :
    (phaseFinish st ch u).1.has_started = st.has_started
    ∧ (phaseFinish st ch u).1.has_text_content_started = st.has_text_content_started := by
  unfold phaseFinish
  cases ch.finish_reason with
  | none => exact ⟨rfl, rfl⟩
  | some fr =>
    dsimp only
    split
    · exact ⟨rfl, rfl⟩
    · exact ⟨rfl, rfl⟩

open Anthropic in
/-- The argument step leaves the flags, the content index and the
emptiness of the tool dict unchanged. -/
theorem argsStep_flags (st : StreamState) (acc : List SSEEvent) (tc : ToolCallDelta) :
    (argsStep st acc tc).1.has_started = st.has_started
    ∧ (argsStep st acc tc).1.has_finished = st.has_finished
    ∧ (argsStep st acc tc).1.has_text_content_started = st.has_text_content_started
    ∧ (argsStep st acc tc).1.content_index = st.content_index
    ∧ (argsStep st acc tc).1.tool_calls.isEmpty = st.tool_calls.isEmpty := by
  unfold argsStep
  cases ha : tc.function.arguments with
  | none => exact ⟨rfl, rfl, rfl, rfl, rfl⟩
  | some args =>
    dsimp only
    split
    · exact ⟨rfl, rfl, rfl, rfl, rfl⟩
    · cases hl : alookup st.tool_calls tc.index with
      | none => exact ⟨rfl, rfl, rfl, rfl, rfl⟩
      | some cur =>
        dsimp only
        have hnonempty : st.tool_calls.isEmpty = false := by
          cases htc : st.tool_calls with
          | nil => rw [htc] at hl; exact Option.noConfusion hl
          | cons p r => rfl
        cases hm : alookup st.tool_call_index_to_content_block_index tc.index with
        | some bi => exact ⟨rfl, rfl, rfl, rfl, by rw [hnonempty]; rfl⟩
        | none => exact ⟨rfl, rfl, rfl, rfl, by rw [hnonempty]; rfl⟩

open Anthropic in
/-- The tool step leaves the start/finish/text flags unchanged. -/
theorem toolStep_flags (ts : Nat) (st : StreamState) (tc : ToolCallDelta) :
    (toolStep ts st tc).1.has_started = st.has_started
    ∧ (toolStep ts st tc).1.has_finished = st.has_finished
    ∧ (toolStep ts st tc).1.has_text_content_started = st.has_text_content_started := by
  cases hl : alookup st.tool_calls tc.index with
  | none =>
    simp only [toolStep, hl]
    by_cases hc : (st.has_text_content_started || !st.tool_calls.isEmpty) = true
    · rw [if_pos hc]
      dsimp only
      exact ⟨(argsStep_flags _ _ tc).1.trans rfl, (argsStep_flags _ _ tc).2.1.trans rfl,
        (argsStep_flags _ _ tc).2.2.1.trans rfl⟩
    · rw [if_neg hc]
      dsimp only
      exact ⟨(argsStep_flags _ _ tc).1.trans rfl, (argsStep_flags _ _ tc).2.1.trans rfl,
        (argsStep_flags _ _ tc).2.2.1.trans rfl⟩
  | some existing =>
    simp only [toolStep, hl]
    by_cases hup : (truthyOS tc.id && truthyOS tc.function.name
        && strStartsWith existing.id "call_" && strStartsWith existing.name "tool_") = true
    · rw [if_pos hup]
      exact ⟨(argsStep_flags _ _ tc).1.trans rfl, (argsStep_flags _ _ tc).2.1.trans rfl,
        (argsStep_flags _ _ tc).2.2.1.trans rfl⟩
    · rw [if_neg hup]
      exact ⟨(argsStep_flags _ _ tc).1.trans rfl, (argsStep_flags _ _ tc).2.1.trans rfl,
        (argsStep_flags _ _ tc).2.2.1.trans rfl⟩

open Anthropic in
/-- The tool fold leaves the start/finish/text flags unchanged. -/
theorem toolFold_flags (ts : Nat) (tcs : List ToolCallDelta) : ∀ st : StreamState,
    (toolFold ts st tcs).1.has_started = st.has_started
    ∧ (toolFold ts st tcs).1.has_finished = st.has_finished
    ∧ (toolFold ts st tcs).1.has_text_content_started = st.has_text_content_started := by
  induction tcs with
  | nil => intro st; exact ⟨rfl, rfl, rfl⟩
  | cons tc rest ih =>
    intro st
    have heq : toolFold ts st (tc :: rest) =
        ((toolFold ts (toolStep ts st tc).1 rest).1,
         (toolStep ts st tc).2 ++ (toolFold ts (toolStep ts st tc).1 rest).2) := rfl
    rw [heq]
    obtain ⟨a1, a2, a3⟩ := toolStep_flags ts st tc
    obtain ⟨b1, b2, b3⟩ := ih (toolStep ts st tc).1
    exact ⟨b1.trans a1, b2.trans a2, b3.trans a3⟩

open Anthropic in
/-- The tool phase leaves the start/finish/text flags unchanged. -/
theorem phaseTool_flags (ts : Nat) (st : StreamState) (ch : Choice) :
    (phaseTool ts st ch).1.has_started = st.has_started
    ∧ (phaseTool ts st ch).1.has_finished = st.has_finished
    ∧ (phaseTool ts st ch).1.has_text_content_started = st.has_text_content_started := by
  unfold phaseTool
  split
  · exact toolFold_flags ts ch.delta.tool_calls st
  · exact ⟨rfl, rfl, rfl⟩

open Anthropic in
/-- The argument step leaves the predicted open-block slot unchanged. -/
theorem argsStep_pendOf (st : StreamState) (acc : List SSEEvent) (tc : ToolCallDelta) :
    pendOf (argsStep st acc tc).1 = pendOf st := by
  obtain ⟨-, h2, h3, h4, h5⟩ := argsStep_flags st acc tc
  unfold pendOf
  rw [h2, h3, h4, h5]

open Anthropic in
/-- The argument step extends any successful checker run: it appends at
most one checker-neutral event. -/
theorem argsStep_pend (st : StreamState) (acc : List SSEEvent) (tc : ToolCallDelta)
    (p q : Option Nat) (h : dRun p acc = some q) :
    dRun p (argsStep st acc tc).2 = some q := by
  rcases argsStep_events st acc tc with hE | ⟨bi, s, hE⟩ <;> rw [hE]
  · exact h
  · exact dRun_append_some p q q acc _ h (dRun_neutral _ _ rfl)

open Anthropic in
/-- A successful lookup needs a nonempty association list. -/
theorem alookup_nonempty {α β : Type} [DecidableEq α] (l : List (α × β)) (k : α) (v : β)
    (h : alookup l k = some v) : l.isEmpty = false := by
  cases l with
  | nil => exact Option.noConfusion h
  | cons p r => rfl

open Anthropic in
/-- The thinking phase respects the discipline checker: a signature
closes the predicted open block (or emits a harmless stray stop),
leaving the checker with no open block. -/
theorem phaseThinking_pend (st : StreamState) (ch : Choice) (p : Option Nat)
    (hp : RelPend st p) :
    ∃ q, dRun p (phaseThinking st ch).2 = some q ∧ RelPend (phaseThinking st ch).1 q := by
  unfold phaseThinking
  cases ht : ch.delta.thinking with
  | none => exact ⟨p, rfl, hp⟩
  | some t =>
    dsimp only
    by_cases hg : (thinkingTruthy t && !st.has_finished) = true
    · rw [if_pos hg]
      cases hsig : t.signature with
      | some sig =>
        dsimp only
        refine ⟨none, ?_, Or.inr rfl⟩
        have hfin : st.has_finished = false := by
          simp only [Bool.and_eq_true] at hg
          simpa using hg.2
        have hpq : p = some st.content_index ∨ p = none := by
          rcases hp with hp | hp
          · by_cases hc : (st.has_text_content_started || !st.tool_calls.isEmpty) = true
            · left
              rw [hp]
              simp [pendOf, hfin, hc]
            · right
              rw [hp]
              simp [pendOf, hfin, hc]
          · exact Or.inr hp
        rcases hpq with rfl | rfl
        · have hdelta : dStep (some st.content_index)
              (SSEEvent.blockDelta st.content_index (DeltaBody.signatureDelta sig)) =
              some (some st.content_index) := rfl
          rw [dRun_cons, hdelta]
          dsimp only
          rw [dRun_cons]
          have hstop : dStep (some st.content_index)
              (SSEEvent.blockStop st.content_index) = some none := by
            simp [dStep]
          rw [hstop]
          rfl
        · rfl
      | none =>
        dsimp only
        cases hc : t.content with
        | some cont =>
          dsimp only
          split
          · exact ⟨p, rfl, hp⟩
          · exact ⟨p, dRun_neutral _ _ rfl, hp⟩
        | none => exact ⟨p, rfl, hp⟩
    · rw [if_neg hg]
      exact ⟨p, rfl, hp⟩

open Anthropic in
/-- The tool step respects the discipline checker. -/
theorem toolStep_pend (ts : Nat) (st : StreamState) (tc : ToolCallDelta) (p : Option Nat)
    (hfin : st.has_finished = false) (hp : RelPend st p) :
    ∃ q, dRun p (toolStep ts st tc).2 = some q ∧ RelPend (toolStep ts st tc).1 q := by
  cases hl : alookup st.tool_calls tc.index with
  | none =>
    simp only [toolStep, hl]
    by_cases hc : (st.has_text_content_started || !st.tool_calls.isEmpty) = true
    · rw [if_pos hc]
      dsimp only
      have hpsome : pendOf st = some st.content_index := by
        simp [pendOf, hfin, hc]
      have hpq : p = some st.content_index ∨ p = none := by
        rcases hp with hp | hp
        · left
          rw [hp, hpsome]
        · exact Or.inr hp
      refine ⟨some (st.content_index + 1), ?_, Or.inl ?_⟩
      · refine argsStep_pend _ _ tc p (some (st.content_index + 1)) ?_
        rcases hpq with rfl | rfl
        · rw [List.singleton_append, dRun_cons]
          have hstop : dStep (some st.content_index)
              (SSEEvent.blockStop st.content_index) = some none := by
            simp [dStep]
          rw [hstop]
          rfl
        · rfl
      · rw [argsStep_pendOf]
        simp [pendOf, hfin]
    · rw [if_neg hc]
      dsimp only
      have hpnone : pendOf st = none := by
        simp [pendOf, hfin, hc]
      have hpn : p = none := by
        rcases hp with hp | hp
        · rw [hp, hpnone]
        · exact hp
      subst hpn
      refine ⟨some st.content_index, ?_, Or.inl ?_⟩
      · exact argsStep_pend _ _ tc none (some st.content_index) rfl
      · rw [argsStep_pendOf]
        simp [pendOf, hfin]
  | some existing =>
    simp only [toolStep, hl]
    have hne : st.tool_calls.isEmpty = false := alookup_nonempty _ _ _ hl
    by_cases hup : (truthyOS tc.id && truthyOS tc.function.name
        && strStartsWith existing.id "call_" && strStartsWith existing.name "tool_") = true
    · rw [if_pos hup]
      refine ⟨p, argsStep_pend _ [] tc p p rfl, ?_⟩
      rcases hp with hp | hp
      · left
        rw [hp, argsStep_pendOf]
        simp [pendOf, hne]
      · exact Or.inr hp
    · rw [if_neg hup]
      refine ⟨p, argsStep_pend _ [] tc p p rfl, ?_⟩
      rcases hp with hp | hp
      · left
        rw [hp, argsStep_pendOf]
      · exact Or.inr hp

open Anthropic in
/-- The tool fold respects the discipline checker. -/
theorem toolFold_pend (ts : Nat) (tcs : List ToolCallDelta) :
    ∀ (st : StreamState) (p : Option Nat), st.has_finished = false → RelPend st p →
    ∃ q, dRun p (toolFold ts st tcs).2 = some q ∧ RelPend (toolFold ts st tcs).1 q := by
  induction tcs with
  | nil =>
    intro st p hfin hp
    exact ⟨p, rfl, hp⟩
  | cons tc rest ih =>
    intro st p hfin hp
    have heq : toolFold ts st (tc :: rest) =
        ((toolFold ts (toolStep ts st tc).1 rest).1,
         (toolStep ts st tc).2 ++ (toolFold ts (toolStep ts st tc).1 rest).2) := rfl
    rw [heq]
    dsimp only
    obtain ⟨q1, hq1, hr1⟩ := toolStep_pend ts st tc p hfin hp
    have hfin1 : (toolStep ts st tc).1.has_finished = false := by
      rw [(toolStep_flags ts st tc).2.1]
      exact hfin
    obtain ⟨q2, hq2, hr2⟩ := ih (toolStep ts st tc).1 q1 hfin1 hr1
    exact ⟨q2, dRun_append_some _ _ _ _ _ hq1 hq2, hr2⟩

open Anthropic in
/-- The tool phase respects the discipline checker. -/
theorem phaseTool_pend (ts : Nat) (st : StreamState) (ch : Choice) (p : Option Nat)
    (hfin : st.has_finished = false) (hp : RelPend st p) :
    ∃ q, dRun p (phaseTool ts st ch).2 = some q ∧ RelPend (phaseTool ts st ch).1 q := by
  unfold phaseTool
  split
  · exact toolFold_pend ts ch.delta.tool_calls st p hfin hp
  · exact ⟨p, rfl, hp⟩

open Anthropic in
/-- The text phase respects the discipline checker, provided no tool
block is registered when text content arrives. -/
theorem phaseText_pend (st : StreamState) (ch : Choice) (p : Option Nat)
    (hct : truthyOS ch.delta.content = true → st.tool_calls = [])
    (hp : RelPend st p) :
    ∃ q, dRun p (phaseText st ch).2 = some q ∧ RelPend (phaseText st ch).1 q := by
  unfold phaseText
  cases hc : ch.delta.content with
  | none => exact ⟨p, rfl, hp⟩
  | some cont =>
    dsimp only
    by_cases hz : (cont = "" || st.has_finished) = true
    · rw [if_pos hz]
      exact ⟨p, rfl, hp⟩
    · rw [if_neg hz]
      have hz' : ¬ cont = "" ∧ st.has_finished = false := by
        simp only [Bool.or_eq_true, decide_eq_true_eq, not_or] at hz
        exact ⟨hz.1, by simpa using hz.2⟩
      have htc : st.tool_calls = [] := by
        apply hct
        rw [hc]
        simp [truthyOS, hz'.1]
      by_cases ht : (!st.has_text_content_started && !st.has_finished) = true
      · rw [if_pos ht]
        dsimp only
        have h1 : st.has_text_content_started = false := by
          simp only [Bool.and_eq_true, Bool.not_eq_true'] at ht
          exact ht.1
        have hpnone : pendOf st = none := by
          simp [pendOf, hz'.2, h1, htc]
        have hpn : p = none := by
          rcases hp with hp | hp
          · rw [hp, hpnone]
          · exact hp
        subst hpn
        refine ⟨some st.content_index, rfl, Or.inl ?_⟩
        simp [pendOf, hz'.2]
      · rw [if_neg ht]
        dsimp only
        exact ⟨p, dRun_neutral _ _ rfl, hp⟩

open Anthropic in
/-- The finish phase respects the discipline checker and leaves no
block open. -/
theorem phaseFinish_pend (st : StreamState) (ch : Choice) (u : ChunkUsage) (p : Option Nat)
    (hp : RelPend st p) :
    ∃ q, dRun p (phaseFinish st ch u).2 = some q ∧ RelPend (phaseFinish st ch u).1 q := by
  unfold phaseFinish
  cases hfr : ch.finish_reason with
  | none => exact ⟨p, rfl, hp⟩
  | some fr =>
    dsimp only
    by_cases hz : (fr = "" || st.has_finished) = true
    · rw [if_pos hz]
      exact ⟨p, rfl, hp⟩
    · rw [if_neg hz]
      dsimp only
      have hfin : st.has_finished = false := by
        simp only [Bool.or_eq_true, decide_eq_true_eq, not_or] at hz
        simpa using hz.2
      refine ⟨none, ?_, Or.inr rfl⟩
      by_cases hg : (st.has_text_content_started || !st.tool_calls.isEmpty) = true
      · rw [if_pos hg]
        have hpsome : pendOf st = some st.content_index := by
          simp [pendOf, hfin, hg]
        have hpq : p = some st.content_index ∨ p = none := by
          rcases hp with hp | hp
          · left
            rw [hp, hpsome]
          · exact Or.inr hp
        rcases hpq with rfl | rfl
        · rw [List.singleton_append, dRun_cons]
          have hstop : dStep (some st.content_index)
              (SSEEvent.blockStop st.content_index) = some none := by
            simp [dStep]
          rw [hstop]
          rfl
        · rfl
      · rw [if_neg hg]
        have hpnone : pendOf st = none := by
          simp [pendOf, hfin, hg]
        have hpn : p = none := by
          rcases hp with hp | hp
          · rw [hp, hpnone]
          · exact hp
        subst hpn
        rfl

open Anthropic in
/-- Without tool-call deltas the tool phase does nothing. -/
theorem phaseTool_skip (ts : Nat) (st : StreamState) (ch : Choice)
    (h : ch.delta.tool_calls.isEmpty = true) : phaseTool ts st ch = (st, []) := by
  unfold phaseTool
  rw [h]
  simp

open Anthropic in
/-- The chained phases of one choice respect the discipline checker. -/
theorem pend_phases (ts : Nat) (st2 : StreamState) (ch : Choice) (u : ChunkUsage)
    (p : Option Nat) (hfin : st2.has_finished = false)
    (hct : truthyOS ch.delta.content = true → st2.tool_calls = [])
    (hp : RelPend st2 p) :
    ∃ q, dRun p
        ((((phaseThinking st2 ch).2 ++ (phaseText (phaseThinking st2 ch).1 ch).2)
          ++ (phaseTool ts (phaseText (phaseThinking st2 ch).1 ch).1 ch).2)
          ++ (phaseFinish (phaseTool ts (phaseText (phaseThinking st2 ch).1 ch).1 ch).1 ch u).2)
        = some q
      ∧ RelPend
          (phaseFinish (phaseTool ts (phaseText (phaseThinking st2 ch).1 ch).1 ch).1 ch u).1 q := by
  obtain ⟨q3, h3, hr3⟩ := phaseThinking_pend st2 ch p hp
  have hfin3 : (phaseThinking st2 ch).1.has_finished = false := by
    rw [(phaseThinking_state st2 ch).2.2.2.1]
    exact hfin
  have hct3 : truthyOS ch.delta.content = true → (phaseThinking st2 ch).1.tool_calls = [] := by
    intro h
    rw [(phaseThinking_state st2 ch).1]
    exact hct h
  obtain ⟨q4, h4, hr4⟩ := phaseText_pend (phaseThinking st2 ch).1 ch q3 hct3 hr3
  have hfin4 : (phaseText (phaseThinking st2 ch).1 ch).1.has_finished = false := by
    rw [(phaseText_state (phaseThinking st2 ch).1 ch).2.2.2]
    exact hfin3
  obtain ⟨q5, h5, hr5⟩ :=
    phaseTool_pend ts (phaseText (phaseThinking st2 ch).1 ch).1 ch q4 hfin4 hr4
  obtain ⟨q6, h6, hr6⟩ :=
    phaseFinish_pend (phaseTool ts (phaseText (phaseThinking st2 ch).1 ch).1 ch).1 ch u q5 hr5
  exact ⟨q6,
    dRun_append_some _ _ _ _ _ (dRun_append_some _ _ _ _ _ (dRun_append_some _ _ _ _ _ h3 h4) h5)
      h6, hr6⟩

open Anthropic in
/-- One chunk's core processing respects the discipline checker. -/
theorem processChunkCore_pend (ts : Nat) (st1 : StreamState) (c : Chunk) (p : Option Nat)
    (hfin : st1.has_finished = false)
    (hct : ∀ ch, c.choices.head? = some ch → truthyOS ch.delta.content = true →
      st1.tool_calls = [])
    (hp : RelPend st1 p) :
    ∃ q, dRun p (processChunkCore ts st1 c).2 = some q
      ∧ RelPend (processChunkCore ts st1 c).1 q := by
  unfold processChunkCore
  by_cases hs : (!st1.has_started && !st1.has_finished) = true
  · rw [if_pos hs]
    dsimp only
    cases hch : c.choices.head? with
    | none =>
      refine ⟨p, dRun_neutral _ _ rfl, ?_⟩
      rcases hp with hp | hp
      · exact Or.inl hp
      · exact Or.inr hp
    | some ch =>
      dsimp only
      have hp2 : RelPend { st1 with has_started := true } p := by
        rcases hp with hp | hp
        · exact Or.inl hp
        · exact Or.inr hp
      obtain ⟨q, hq, hr⟩ := pend_phases ts { st1 with has_started := true } ch c.usage p hfin
        (fun h => hct ch hch h) hp2
      refine ⟨q, ?_, hr⟩
      have hms : dRun p [SSEEvent.messageStart ("msg_" ++ toString ts) st1.model] = some p :=
        dRun_neutral _ _ rfl
      have hall := dRun_append_some _ _ _ _ _ hms hq
      simpa [List.append_assoc] using hall
  · rw [if_neg hs]
    dsimp only
    cases hch : c.choices.head? with
    | none => exact ⟨p, rfl, hp⟩
    | some ch =>
      dsimp only
      obtain ⟨q, hq, hr⟩ := pend_phases ts st1 ch c.usage p hfin (fun h => hct ch hch h) hp
      refine ⟨q, ?_, hr⟩
      simpa [List.append_assoc] using hq

open Anthropic in
/-- One chunk's processing respects the discipline checker. -/
theorem processChunk_pend (ts : Nat) (st : StreamState) (c : Chunk) (p : Option Nat)
    (hfin : st.has_finished = false)
    (hct : contentChunk c = true → st.tool_calls = [])
    (hp : RelPend st p) :
    ∃ q, dRun p (processChunk ts st c).2 = some q ∧ RelPend (processChunk ts st c).1 q := by
  unfold processChunk
  by_cases herr : jtruthyOpt c.error = true
  · rw [if_pos herr]
    exact ⟨p, dRun_neutral _ _ rfl, hp⟩
  · rw [if_neg herr]
    have herr' : jtruthyOpt c.error = false := by simpa using herr
    have hcc : ∀ ch, c.choices.head? = some ch → truthyOS ch.delta.content = true →
        st.tool_calls = [] := by
      intro ch hch htr
      apply hct
      simp [contentChunk, errChunk, herr', hch, htr]
    cases hm : c.model with
    | some m =>
      dsimp only
      by_cases hz : m = ""
      · rw [if_pos hz]
        exact processChunkCore_pend ts st c p hfin hcc hp
      · rw [if_neg hz]
        refine processChunkCore_pend ts { st with model := m } c p hfin hcc ?_
        rcases hp with hp | hp
        · exact Or.inl hp
        · exact Or.inr hp
    | none =>
      dsimp only
      exact processChunkCore_pend ts st c p hfin hcc hp

open Anthropic in
/-- A chunk without tool-call deltas leaves the tool dict unchanged. -/
theorem processChunk_toolcalls (ts : Nat) (st : StreamState) (c : Chunk)
    (h : toolChunk c = false) :
    (processChunk ts st c).1.tool_calls = st.tool_calls := by
  unfold processChunk
  by_cases herr : jtruthyOpt c.error = true
  · rw [if_pos herr]
  · rw [if_neg herr]
    have herr' : jtruthyOpt c.error = false := by simpa using herr
    have hcore : ∀ st1 : StreamState, st1.tool_calls = st.tool_calls →
        (processChunkCore ts st1 c).1.tool_calls = st.tool_calls := by
      intro st1 h1
      unfold processChunkCore
      by_cases hs : (!st1.has_started && !st1.has_finished) = true
      · rw [if_pos hs]
        dsimp only
        cases hch : c.choices.head? with
        | none => exact h1
        | some ch =>
          dsimp only
          have hemp : ch.delta.tool_calls.isEmpty = true := by
            unfold toolChunk errChunk at h
            rw [herr', hch] at h
            simpa using h
          rw [(phaseFinish_state _ ch c.usage).1,
            phaseTool_skip ts _ ch hemp]
          rw [(phaseText_state _ ch).1, (phaseThinking_state _ ch).1]
          exact h1
      · rw [if_neg hs]
        dsimp only
        cases hch : c.choices.head? with
        | none => exact h1
        | some ch =>
          dsimp only
          have hemp : ch.delta.tool_calls.isEmpty = true := by
            unfold toolChunk errChunk at h
            rw [herr', hch] at h
            simpa using h
          rw [(phaseFinish_state _ ch c.usage).1,
            phaseTool_skip ts _ ch hemp]
          rw [(phaseText_state _ ch).1, (phaseThinking_state _ ch).1]
          exact h1
    cases hm : c.model with
    | some m =>
      dsimp only
      by_cases hz : m = ""
      · rw [if_pos hz]
        exact hcore st rfl
      · rw [if_neg hz]
        exact hcore { st with model := m } rfl
    | none =>
      dsimp only
      exact hcore st rfl

open Anthropic in
/-- Chunk-list processing respects the discipline checker on streams in
which no text delta follows a tool-call delta. -/
theorem processChunks_pend (ts : Nat) (cs : List Chunk) :
    ∀ (st : StreamState) (p : Option Nat),
    noTextAfterToolB cs = true →
    (st.tool_calls = [] ∨ ∀ c ∈ cs, contentChunk c = false) →
    RelPend st p →
    ∃ q, dRun p (processChunks ts st cs).2 = some q ∧ RelPend (processChunks ts st cs).1 q := by
  induction cs with
  | nil =>
    intro st p _ _ hp
    exact ⟨p, rfl, hp⟩
  | cons c rest ih =>
    intro st p hnt hinv hp
    by_cases hf : st.has_finished = true
    · have heq : processChunks ts st (c :: rest) = (st, []) := by
        simp only [processChunks, if_pos hf]
      rw [heq]
      exact ⟨p, rfl, hp⟩
    · have heq : processChunks ts st (c :: rest) =
          ((processChunks ts (processChunk ts st c).1 rest).1,
           (processChunk ts st c).2 ++ (processChunks ts (processChunk ts st c).1 rest).2) := by
        simp only [processChunks, if_neg hf]
      rw [heq]
      dsimp only
      have hfin : st.has_finished = false := by simpa using hf
      have hct : contentChunk c = true → st.tool_calls = [] := by
        intro hcc
        rcases hinv with h | h
        · exact h
        · rw [h c (List.mem_cons_self c rest)] at hcc
          exact Bool.noConfusion hcc
      obtain ⟨q1, hq1, hr1⟩ := processChunk_pend ts st c p hfin hct hp
      have hnt' : noTextAfterToolB rest = true := by
        unfold noTextAfterToolB at hnt
        by_cases htc : toolChunk c = true
        · rw [if_pos htc] at hnt
          simp only [Bool.and_eq_true] at hnt
          exact hnt.2
        · rw [if_neg htc] at hnt
          exact hnt
      have hinv' : (processChunk ts st c).1.tool_calls = []
          ∨ ∀ c' ∈ rest, contentChunk c' = false := by
        by_cases htc : toolChunk c = true
        · right
          have hnt2 := hnt
          unfold noTextAfterToolB at hnt2
          rw [if_pos htc] at hnt2
          simp only [Bool.and_eq_true] at hnt2
          have hall := hnt2.1
          intro c' hc'
          have hx := List.all_eq_true.mp hall c' hc'
          simpa using hx
        · rcases hinv with h | h
          · left
            rw [processChunk_toolcalls ts st c (by simpa using htc)]
            exact h
          · right
            intro c' hc'
            exact h c' (List.mem_cons_of_mem c hc')
      obtain ⟨q2, hq2, hr2⟩ := ih (processChunk ts st c).1 q1 hnt' hinv' hr1
      exact ⟨q2, dRun_append_some _ _ _ _ _ hq1 hq2, hr2⟩

open Anthropic in
/-- The thinking phase emits neither `message_start` nor
`message_stop`. -/
theorem phaseThinking_events (st : StreamState) (ch : Choice) :
    ∀ e ∈ (phaseThinking st ch).2, isMS e = false ∧ isMStop e = false := by
  unfold phaseThinking
  cases ch.delta.thinking with
  | none => intro e he; cases he
  | some t =>
    dsimp only
    split
    · cases t.signature with
      | some sig =>
        intro e he
        simp only [List.mem_cons, List.not_mem_nil, or_false] at he
        rcases he with rfl | rfl
        · exact ⟨rfl, rfl⟩
        · exact ⟨rfl, rfl⟩
      | none =>
        dsimp only
        cases t.content with
        | some cont =>
          dsimp only
          split
          · intro e he
            cases he
          · intro e he
            simp only [List.mem_cons, List.not_mem_nil, or_false] at he
            rcases he with rfl
            exact ⟨rfl, rfl⟩
        | none =>
          intro e he
          cases he
    · intro e he
      cases he

open Anthropic in
/-- The finish flag after the finish phase. -/
theorem phaseFinish_finished (st : StreamState) (ch : Choice) (u : ChunkUsage) :
    (phaseFinish st ch u).1.has_finished = (st.has_finished || truthyOS ch.finish_reason) := by
  rcases phaseFinish_events st ch u with ⟨h1, h2, -, -⟩ | ⟨h1, h2⟩
  · simp only [Bool.and_eq_true] at h1
    rw [h2, h1.1, Bool.or_true]
  · rw [h2]
    show st.has_finished = (st.has_finished || truthyOS ch.finish_reason)
    cases ha : truthyOS ch.finish_reason with
    | false => rw [Bool.or_false]
    | true =>
      rw [ha] at h1
      have hb : st.has_finished = true := by simpa using h1
      rw [hb, Bool.true_or]

open Anthropic in
/-- Once the stream is finished the remaining chunks are discarded. -/
theorem processChunks_break (ts : Nat) (st : StreamState) (cs : List Chunk)
    (h : st.has_finished = true) : processChunks ts st cs = (st, []) := by
  cases cs with
  | nil => rfl
  | cons c rest => simp only [processChunks, if_pos h]

open Anthropic in
/-- The finish flag after one chunk: set exactly by a finish chunk. -/
theorem processChunk_finished (ts : Nat) (st : StreamState) (c : Chunk) :
    (processChunk ts st c).1.has_finished = (st.has_finished || finishChunk c) := by
  unfold processChunk
  by_cases herr : jtruthyOpt c.error = true
  · rw [if_pos herr]
    have hfc : finishChunk c = false := by
      unfold finishChunk errChunk
      rw [herr]
      rfl
    rw [hfc, Bool.or_false]
  · rw [if_neg herr]
    have herr' : jtruthyOpt c.error = false := by simpa using herr
    have hcore : ∀ st1 : StreamState, st1.has_finished = st.has_finished →
        (processChunkCore ts st1 c).1.has_finished = (st.has_finished || finishChunk c) := by
      intro st1 h1
      unfold processChunkCore
      by_cases hs : (!st1.has_started && !st1.has_finished) = true
      · rw [if_pos hs]
        dsimp only
        cases hch : c.choices.head? with
        | none =>
          have hfc : finishChunk c = false := by
            unfold finishChunk errChunk
            rw [herr', hch]
            rfl
          rw [hfc, Bool.or_false]
          exact h1
        | some ch =>
          dsimp only
          have hfc : finishChunk c = truthyOS ch.finish_reason := by
            unfold finishChunk errChunk
            rw [herr', hch]
            rfl
          rw [phaseFinish_finished, hfc, (phaseTool_flags ts _ ch).2.1,
            (phaseText_state _ ch).2.2.2, (phaseThinking_state _ ch).2.2.2.1]
          dsimp only
          rw [h1]
      · rw [if_neg hs]
        dsimp only
        cases hch : c.choices.head? with
        | none =>
          have hfc : finishChunk c = false := by
            unfold finishChunk errChunk
            rw [herr', hch]
            rfl
          rw [hfc, Bool.or_false]
          exact h1
        | some ch =>
          dsimp only
          have hfc : finishChunk c = truthyOS ch.finish_reason := by
            unfold finishChunk errChunk
            rw [herr', hch]
            rfl
          rw [phaseFinish_finished, hfc, (phaseTool_flags ts _ ch).2.1,
            (phaseText_state _ ch).2.2.2, (phaseThinking_state _ ch).2.2.2.1]
          rw [h1]
    cases hm : c.model with
    | some m =>
      dsimp only
      by_cases hz : m = ""
      · rw [if_pos hz]
        exact hcore st rfl
      · rw [if_neg hz]
        exact hcore { st with model := m } rfl
    | none =>
      dsimp only
      exact hcore st rfl

open Anthropic in
/-- The start flag after one chunk: set by the first processed
chunk. -/
theorem processChunk_started (ts : Nat) (st : StreamState) (c : Chunk) :
    (processChunk ts st c).1.has_started =
      (st.has_started || (!errChunk c && !st.has_finished)) := by
  unfold processChunk
  by_cases herr : jtruthyOpt c.error = true
  · rw [if_pos herr]
    have he : errChunk c = true := herr
    rw [he]
    simp
  · rw [if_neg herr]
    have herr' : errChunk c = false := by simpa using herr
    rw [herr']
    have hcore : ∀ st1 : StreamState, st1.has_started = st.has_started →
        st1.has_finished = st.has_finished →
        (processChunkCore ts st1 c).1.has_started =
          (st.has_started || (!false && !st.has_finished)) := by
      intro st1 h1 h2
      unfold processChunkCore
      by_cases hs : (!st1.has_started && !st1.has_finished) = true
      · rw [if_pos hs]
        dsimp only
        simp only [Bool.and_eq_true, Bool.not_eq_true'] at hs
        have hb1 : st.has_started = false := by rw [← h1]; exact hs.1
        have hb2 : st.has_finished = false := by rw [← h2]; exact hs.2
        rw [hb1, hb2]
        cases hch : c.choices.head? with
        | none => rfl
        | some ch =>
          dsimp only
          rw [(phaseFinish_started _ ch c.usage).1, (phaseTool_flags ts _ ch).1,
            phaseText_started, (phaseThinking_state _ ch).2.2.2.2.2]
          rfl
      · rw [if_neg hs]
        dsimp only
        have hchain : ∀ X : StreamState, X = st1 →
            st1.has_started = (st.has_started || (!false && !st.has_finished)) →
            X.has_started = (st.has_started || (!false && !st.has_finished)) := by
          intro X hX hgoal
          rw [hX]
          exact hgoal
        have hmain : st1.has_started = (st.has_started || (!false && !st.has_finished)) := by
          cases hstart : st.has_started with
          | true =>
            rw [h1, hstart, Bool.true_or]
          | false =>
            have hfin : st.has_finished = true := by
              cases hb : st.has_finished with
              | true => rfl
              | false =>
                refine absurd ?_ hs
                rw [h1, h2, hstart, hb]
                rfl
            rw [h1, hstart, hfin]
            rfl
        cases hch : c.choices.head? with
        | none => exact hmain
        | some ch =>
          dsimp only
          rw [(phaseFinish_started _ ch c.usage).1, (phaseTool_flags ts _ ch).1,
            phaseText_started, (phaseThinking_state _ ch).2.2.2.2.2]
          exact hmain
    cases hm : c.model with
    | some m =>
      dsimp only
      by_cases hz : m = ""
      · rw [if_pos hz]
        exact hcore st rfl rfl
      · rw [if_neg hz]
        exact hcore { st with model := m } rfl rfl
    | none =>
      dsimp only
      exact hcore st rfl rfl

open Anthropic in
/-- The thinking phase emits no `message_start`. -/
theorem phaseThinking_countMS (st : StreamState) (ch : Choice) :
    countEvents isMS (phaseThinking st ch).2 = 0 :=
  countEvents_zero _ _ (fun e he => (phaseThinking_events st ch e he).1)

open Anthropic in
/-- The thinking phase emits no `message_stop`. -/
theorem phaseThinking_countStop (st : StreamState) (ch : Choice) :
    countEvents isMStop (phaseThinking st ch).2 = 0 :=
  countEvents_zero _ _ (fun e he => (phaseThinking_events st ch e he).2)

open Anthropic in
/-- The text phase emits no `message_start`. -/
theorem phaseText_countMS (st : StreamState) (ch : Choice) :
    countEvents isMS (phaseText st ch).2 = 0 :=
  countEvents_zero _ _ (fun e he => (phaseText_events st ch e he).1)

open Anthropic in
/-- The text phase emits no `message_stop`. -/
theorem phaseText_countStop (st : StreamState) (ch : Choice) :
    countEvents isMStop (phaseText st ch).2 = 0 :=
  countEvents_zero _ _ (fun e he => (phaseText_events st ch e he).2)

open Anthropic in
/-- The tool phase emits no `message_start`. -/
theorem phaseTool_countMS (ts : Nat) (st : StreamState) (ch : Choice) :
    countEvents isMS (phaseTool ts st ch).2 = 0 :=
  countEvents_zero _ _ (fun e he => (phaseTool_events ts st ch e he).1)

open Anthropic in
/-- The tool phase emits no `message_stop`. -/
theorem phaseTool_countStop (ts : Nat) (st : StreamState) (ch : Choice) :
    countEvents isMStop (phaseTool ts st ch).2 = 0 :=
  countEvents_zero _ _ (fun e he => (phaseTool_events ts st ch e he).2)

open Anthropic in
/-- The finish phase emits no `message_start`. -/
theorem phaseFinish_countMS (st : StreamState) (ch : Choice) (u : ChunkUsage) :
    countEvents isMS (phaseFinish st ch u).2 = 0 := by
  rcases phaseFinish_events st ch u with ⟨-, -, h, -⟩ | ⟨-, h⟩
  · exact h
  · rw [h]
    rfl

open Anthropic in
/-- The finish phase emits one `message_stop` exactly when it fires. -/
theorem phaseFinish_countStop (st : StreamState) (ch : Choice) (u : ChunkUsage) :
    countEvents isMStop (phaseFinish st ch u).2 =
      if (truthyOS ch.finish_reason && !st.has_finished) = true then 1 else 0 := by
  rcases phaseFinish_events st ch u with ⟨h1, -, -, h⟩ | ⟨h1, h⟩
  · rw [h, if_pos h1]
  · rw [h]
    simp only [h1, Bool.false_eq_true, if_false]
    rfl

open Anthropic in
/-- `message_start` events of one chunk: one exactly when a processed
chunk meets an unstarted, unfinished stream. -/
theorem processChunk_countMS (ts : Nat) (st : StreamState) (c : Chunk) :
    countEvents isMS (processChunk ts st c).2 =
      if (!errChunk c && !st.has_started && !st.has_finished) = true then 1 else 0 := by
  unfold processChunk
  by_cases herr : jtruthyOpt c.error = true
  · rw [if_pos herr]
    have he : errChunk c = true := herr
    rw [he]
    rfl
  · rw [if_neg herr]
    have herr' : errChunk c = false := by simpa using herr
    rw [herr']
    have hcore : ∀ st1 : StreamState, st1.has_started = st.has_started →
        st1.has_finished = st.has_finished →
        countEvents isMS (processChunkCore ts st1 c).2 =
          if (!false && !st.has_started && !st.has_finished) = true then 1 else 0 := by
      intro st1 h1 h2
      unfold processChunkCore
      by_cases hs : (!st1.has_started && !st1.has_finished) = true
      · rw [if_pos hs]
        dsimp only
        have hcond : (!false && !st.has_started && !st.has_finished) = true := by
          rw [← h1, ← h2]
          exact hs
        rw [if_pos hcond]
        cases hch : c.choices.head? with
        | none => rfl
        | some ch =>
          dsimp only
          rw [countEvents_append, countEvents_append, countEvents_append, countEvents_append,
            phaseThinking_countMS, phaseText_countMS, phaseTool_countMS, phaseFinish_countMS]
          rfl
      · rw [if_neg hs]
        dsimp only
        have hcond : ¬ (!false && !st.has_started && !st.has_finished) = true := by
          intro hq
          apply hs
          rw [← h1, ← h2] at hq
          exact hq
        rw [if_neg hcond]
        cases hch : c.choices.head? with
        | none => rfl
        | some ch =>
          dsimp only
          rw [countEvents_append, countEvents_append, countEvents_append, countEvents_append,
            phaseThinking_countMS, phaseText_countMS, phaseTool_countMS, phaseFinish_countMS]
          rfl
    cases hm : c.model with
    | some m =>
      dsimp only
      by_cases hz : m = ""
      · rw [if_pos hz]
        exact hcore st rfl rfl
      · rw [if_neg hz]
        exact hcore { st with model := m } rfl rfl
    | none =>
      dsimp only
      exact hcore st rfl rfl

open Anthropic in
/-- `message_stop` events of one chunk: one exactly when a finish chunk
meets an unfinished stream. -/
theorem processChunk_countStop (ts : Nat) (st : StreamState) (c : Chunk) :
    countEvents isMStop (processChunk ts st c).2 =
      if (finishChunk c && !st.has_finished) = true then 1 else 0 := by
  unfold processChunk
  by_cases herr : jtruthyOpt c.error = true
  · rw [if_pos herr]
    have hfc : finishChunk c = false := by
      unfold finishChunk errChunk
      rw [herr]
      rfl
    rw [hfc]
    rfl
  · rw [if_neg herr]
    have herr' : jtruthyOpt c.error = false := by simpa using herr
    have hcore : ∀ st1 : StreamState, st1.has_finished = st.has_finished →
        countEvents isMStop (processChunkCore ts st1 c).2 =
          if (finishChunk c && !st.has_finished) = true then 1 else 0 := by
      intro st1 h2
      unfold processChunkCore
      by_cases hs : (!st1.has_started && !st1.has_finished) = true
      · rw [if_pos hs]
        dsimp only
        cases hch : c.choices.head? with
        | none =>
          have hfc : finishChunk c = false := by
            unfold finishChunk errChunk
            rw [herr', hch]
            rfl
          rw [hfc]
          rfl
        | some ch =>
          dsimp only
          have hfc : finishChunk c = truthyOS ch.finish_reason := by
            unfold finishChunk errChunk
            rw [herr', hch]
            rfl
          rw [countEvents_append, countEvents_append, countEvents_append, countEvents_append,
            phaseThinking_countStop, phaseText_countStop, phaseTool_countStop,
            phaseFinish_countStop, (phaseTool_flags ts _ ch).2.1,
            (phaseText_state _ ch).2.2.2, (phaseThinking_state _ ch).2.2.2.1]
          dsimp only
          rw [h2, hfc]
          rw [show countEvents isMStop
              [SSEEvent.messageStart ("msg_" ++ toString ts) st1.model] = 0 from rfl,
            Nat.zero_add]
      · rw [if_neg hs]
        dsimp only
        cases hch : c.choices.head? with
        | none =>
          have hfc : finishChunk c = false := by
            unfold finishChunk errChunk
            rw [herr', hch]
            rfl
          rw [hfc]
          rfl
        | some ch =>
          dsimp only
          have hfc : finishChunk c = truthyOS ch.finish_reason := by
            unfold finishChunk errChunk
            rw [herr', hch]
            rfl
          rw [countEvents_append, countEvents_append, countEvents_append, countEvents_append,
            phaseThinking_countStop, phaseText_countStop, phaseTool_countStop,
            phaseFinish_countStop, (phaseTool_flags ts _ ch).2.1,
            (phaseText_state _ ch).2.2.2, (phaseThinking_state _ ch).2.2.2.1]
          rw [h2, hfc]
          rw [show countEvents isMStop ([] : List SSEEvent) = 0 from rfl, Nat.zero_add]
    cases hm : c.model with
    | some m =>
      dsimp only
      by_cases hz : m = ""
      · rw [if_pos hz]
        exact hcore st rfl
      · rw [if_neg hz]
        exact hcore { st with model := m } rfl
    | none =>
      dsimp only
      exact hcore st rfl

open Anthropic in
/-- A started stream emits no further `message_start`. -/
theorem processChunks_countMS_zero (ts : Nat) (cs : List Chunk) : ∀ st : StreamState,
    st.has_started = true → countEvents isMS (processChunks ts st cs).2 = 0 := by
  induction cs with
  | nil =>
    intro st h
    rfl
  | cons c rest ih =>
    intro st h
    by_cases hf : st.has_finished = true
    · rw [processChunks_break ts st _ hf]
      rfl
    · have heq : processChunks ts st (c :: rest) =
          ((processChunks ts (processChunk ts st c).1 rest).1,
           (processChunk ts st c).2 ++ (processChunks ts (processChunk ts st c).1 rest).2) := by
        simp only [processChunks, if_neg hf]
      rw [heq]
      dsimp only
      rw [countEvents_append, processChunk_countMS]
      have hc : (!errChunk c && !st.has_started && !st.has_finished) = false := by
        rw [h]
        simp
      simp only [hc, Bool.false_eq_true, if_false]
      rw [ih (processChunk ts st c).1 (by rw [processChunk_started, h, Bool.true_or])]

open Anthropic in
/-- An unstarted, unfinished stream holding a processed chunk emits
exactly one `message_start`. -/
theorem processChunks_countMS_one (ts : Nat) (cs : List Chunk) : ∀ st : StreamState,
    st.has_started = false → st.has_finished = false →
    (∃ c ∈ cs, errChunk c = false) →
    countEvents isMS (processChunks ts st cs).2 = 1 := by
  induction cs with
  | nil =>
    intro st h1 h2 hex
    obtain ⟨c, hc, -⟩ := hex
    cases hc
  | cons c rest ih =>
    intro st h1 h2 hex
    have hf : ¬ st.has_finished = true := by simp [h2]
    have heq : processChunks ts st (c :: rest) =
        ((processChunks ts (processChunk ts st c).1 rest).1,
         (processChunk ts st c).2 ++ (processChunks ts (processChunk ts st c).1 rest).2) := by
      simp only [processChunks, if_neg hf]
    rw [heq]
    dsimp only
    rw [countEvents_append, processChunk_countMS]
    by_cases herr : errChunk c = true
    · have hcond : (!errChunk c && !st.has_started && !st.has_finished) = false := by
        rw [herr]
        simp
      simp only [hcond, Bool.false_eq_true, if_false]
      have hst : (processChunk ts st c).1 = st := by
        unfold processChunk
        rw [if_pos (show jtruthyOpt c.error = true from herr)]
      rw [hst]
      obtain ⟨c', hc', he'⟩ := hex
      rcases List.mem_cons.mp hc' with rfl | hmem
      · rw [herr] at he'
        exact Bool.noConfusion he'
      · rw [ih st h1 h2 ⟨c', hmem, he'⟩]
    · have herr' : errChunk c = false := by simpa using herr
      have hcond : (!errChunk c && !st.has_started && !st.has_finished) = true := by
        rw [herr', h1, h2]
        rfl
      rw [if_pos hcond]
      rw [processChunks_countMS_zero ts rest (processChunk ts st c).1
        (by rw [processChunk_started, h1, h2, herr']; rfl)]

open Anthropic in
/-- An unfinished stream holding a finish chunk emits exactly one
`message_stop`. -/
theorem processChunks_countStop_one (ts : Nat) (cs : List Chunk) : ∀ st : StreamState,
    st.has_finished = false → (∃ c ∈ cs, finishChunk c = true) →
    countEvents isMStop (processChunks ts st cs).2 = 1 := by
  induction cs with
  | nil =>
    intro st h hex
    obtain ⟨c, hc, -⟩ := hex
    cases hc
  | cons c rest ih =>
    intro st h2 hex
    have hf : ¬ st.has_finished = true := by simp [h2]
    have heq : processChunks ts st (c :: rest) =
        ((processChunks ts (processChunk ts st c).1 rest).1,
         (processChunk ts st c).2 ++ (processChunks ts (processChunk ts st c).1 rest).2) := by
      simp only [processChunks, if_neg hf]
    rw [heq]
    dsimp only
    rw [countEvents_append, processChunk_countStop]
    by_cases hfc : finishChunk c = true
    · have hcond : (finishChunk c && !st.has_finished) = true := by
        rw [hfc, h2]
        rfl
      rw [if_pos hcond]
      have hfin1 : (processChunk ts st c).1.has_finished = true := by
        rw [processChunk_finished, hfc, Bool.or_true]
      rw [processChunks_break ts _ rest hfin1]
      rfl
    · have hfc' : finishChunk c = false := by simpa using hfc
      have hcond : (finishChunk c && !st.has_finished) = false := by
        rw [hfc']
        rfl
      simp only [hcond, Bool.false_eq_true, if_false]
      have hfin1 : (processChunk ts st c).1.has_finished = false := by
        rw [processChunk_finished, hfc', h2]
        rfl
      obtain ⟨c', hc', he'⟩ := hex
      rcases List.mem_cons.mp hc' with rfl | hmem
      · rw [hfc'] at he'
        exact Bool.noConfusion he'
      · rw [ih (processChunk ts st c).1 hfin1 ⟨c', hmem, he'⟩]

open Anthropic in
/-- A stream holding a finish chunk ends finished. -/
theorem processChunks_finished (ts : Nat) (cs : List Chunk) : ∀ st : StreamState,
    (∃ c ∈ cs, finishChunk c = true) →
    (processChunks ts st cs).1.has_finished = true := by
  induction cs with
  | nil =>
    intro st hex
    obtain ⟨c, hc, -⟩ := hex
    cases hc
  | cons c rest ih =>
    intro st hex
    by_cases hf : st.has_finished = true
    · rw [processChunks_break ts st _ hf]
      exact hf
    · have heq : processChunks ts st (c :: rest) =
          ((processChunks ts (processChunk ts st c).1 rest).1,
           (processChunk ts st c).2 ++ (processChunks ts (processChunk ts st c).1 rest).2) := by
        simp only [processChunks, if_neg hf]
      rw [heq]
      dsimp only
      by_cases hfc : finishChunk c = true
      · have hfin1 : (processChunk ts st c).1.has_finished = true := by
          rw [processChunk_finished, hfc, Bool.or_true]
        rw [processChunks_break ts _ rest hfin1]
        exact hfin1
      · obtain ⟨c', hc', he'⟩ := hex
        rcases List.mem_cons.mp hc' with rfl | hmem
        · exact absurd he' hfc
        · exact ih (processChunk ts st c).1 ⟨c', hmem, he'⟩

open Anthropic in
/-- C1 (amended): for every OpenAI chunk stream that carries a finish
chunk and in which no text delta arrives after a tool-call delta, the
converter emits exactly one `message_start` and exactly one
`message_stop`, and every `content_block_start` it emits is followed by
a matching `content_block_stop` for the same index before any
`content_block_start` for a different block. -/
theorem sse_stream_event_discipline (ts : Nat) (chunks : List Anthropic.Chunk)
    (hnt : Anthropic.noTextAfterToolB chunks = true)
    (hfin : ∃ c ∈ chunks, Anthropic.finishChunk c = true) :
    countEvents isMS (processChunks ts {} chunks).2 = 1
    ∧ countEvents isMStop (processChunks ts {} chunks).2 = 1
    ∧ ClaimDiscipline (processChunks ts {} chunks).2 := by
  refine ⟨?_, ?_, ?_⟩
  · obtain ⟨c0, hc0, hfc0⟩ := hfin
    have herr0 : errChunk c0 = false := by
      unfold finishChunk at hfc0
      simp only [Bool.and_eq_true] at hfc0
      simpa using hfc0.1
    exact processChunks_countMS_one ts chunks {} rfl rfl ⟨c0, hc0, herr0⟩
  · exact processChunks_countStop_one ts chunks {} rfl hfin
  · obtain ⟨q, hq, hr⟩ := processChunks_pend ts chunks {} none hnt (Or.inl rfl) (Or.inr rfl)
    have hfl := processChunks_finished ts chunks {} hfin
    have hqnone : q = none := by
      rcases hr with hr | hr
      · rw [hr]
        unfold pendOf
        rw [hfl]
        rfl
      · exact hr
    rw [hqnone] at hq
    exact dRun_discipline _ hq

/-- C1 witness: the spec's plain two-chunk text stream satisfies the
amended property's hypotheses and its conclusion. -/
theorem sse_stream_event_discipline_witness :
    Anthropic.countEvents Anthropic.isMS
        (Anthropic.processChunks 0 {} Examples.streamOk).2 = 1
    ∧ Anthropic.countEvents Anthropic.isMStop
        (Anthropic.processChunks 0 {} Examples.streamOk).2 = 1
    ∧ Anthropic.ClaimDiscipline (Anthropic.processChunks 0 {} Examples.streamOk).2 :=
  sse_stream_event_discipline 0 Examples.streamOk (by decide)
    ⟨{ choices := [ { delta := { content := some "lo" }, finish_reason := some "stop" } ] },
      List.mem_cons_of_mem _ (List.mem_cons_self _ _), by decide⟩

open Anthropic in
/-- C1 counterexample: on a stream whose tool-call delta is followed by
a text delta, the converter emits a `content_block_start` for the text
block at index 0 while the tool block at index 0 is still open — no
`content_block_stop` intervenes, refuting the claimed discipline for
arbitrary streams. -/
theorem sse_discipline_counterexample :
    ¬ Anthropic.ClaimDiscipline ((Anthropic.processChunks 0 {} Examples.streamToolThenText).2) := by
  intro h
  have hev : (Anthropic.processChunks 0 {} Examples.streamToolThenText).2 =
      [SSEEvent.messageStart "msg_0" "unknown",
       SSEEvent.blockStart 0 (BlockInit.toolUse "c1" "f"),
       SSEEvent.blockStart 0 BlockInit.text,
       SSEEvent.blockDelta 0 (DeltaBody.textDelta "hi"),
       SSEEvent.blockStop 0,
       SSEEvent.messageDelta "end_turn" 0 0,
       SSEEvent.messageStop] := by decide
  rw [hev] at h
  obtain ⟨l₃, l₄, hsplit, hok⟩ :=
    h [SSEEvent.messageStart "msg_0" "unknown"] 0 (BlockInit.toolUse "c1" "f")
      [SSEEvent.blockStart 0 BlockInit.text,
       SSEEvent.blockDelta 0 (DeltaBody.textDelta "hi"),
       SSEEvent.blockStop 0,
       SSEEvent.messageDelta "end_turn" 0 0,
       SSEEvent.messageStop] rfl
  cases l₃ with
  | nil =>
    rw [List.nil_append] at hsplit
    injection hsplit with hh ht
    exact SSEEvent.noConfusion hh
  | cons e l₃' =>
    rw [List.cons_append] at hsplit
    injection hsplit with hh ht
    subst hh
    obtain ⟨-, habs⟩ := hok 0 BlockInit.text (List.mem_cons_self _ _)
    exact BlockInit.noConfusion habs
